import Mathlib

/-!
Verification of the kyokon ingredient-vocabulary pipeline.

This file gives a shallow embedding of the three pipeline scripts
(`build-synonym-clusters.py`, `merge-clusters-to-ontology.py`,
`expand-ontology-from-clusters.py`) and proves properties about them.

Strings are treated at the level of Unicode scalar values.  Python's
`str.lower`, `str.strip`, `str.split` and the regex classes `[a-z0-9\s-]`,
`\s` are modelled on the character range that ingredient data uses
(ASCII letters, digits, whitespace and punctuation); on this range
`Char.toLower` agrees with Python's `str.lower`.
-/

namespace Kyokon

/-! ### Python-style character and string helpers -/

/-- Whitespace characters recognised by Python's `\s`, `str.split()` and
`str.strip()` (ASCII range). -/
def isPySpace (c : Char) : Bool :=
  c == ' ' || c == '\t' || c == '\n' || c == '\r' || c == '\x0b' || c == '\x0c'

/-- Python `str.lower()` (ASCII range). -/
def pyLower (s : String) : String :=
  String.mk (s.data.map Char.toLower)

/-- Python `str.strip()` with no arguments: drop leading and trailing
whitespace. -/
def pyStrip (l : List Char) : List Char :=
  ((l.dropWhile isPySpace).reverse.dropWhile isPySpace).reverse

/-- Python `str.strip("-")`: drop leading and trailing hyphens. -/
def trimHyphens (l : List Char) : List Char :=
  ((l.dropWhile (· == '-')).reverse.dropWhile (· == '-')).reverse

/-- Python `str.split()` (no separator): split on whitespace runs and drop
empty pieces.  The accumulator holds the current word, reversed. -/
def splitWsAux : List Char → List Char → List (List Char)
  | [], [] => []
  | [], acc => [acc.reverse]
  | c :: cs, acc =>
    if isPySpace c then
      match acc with
      | [] => splitWsAux cs []
      | _ => acc.reverse :: splitWsAux cs []
    else splitWsAux cs (c :: acc)

/-- Python dictionary lookup for a dictionary represented as an association
list with unique keys (first matching key wins). -/
def lookupStr {β : Type} : List (String × β) → String → Option β
  | [], _ => none
  | (k, v) :: rest, q => if k = q then some v else lookupStr rest q

/-- Replacement of every maximal whitespace run by a single `-`, i.e. Python
`re.sub(r"[\s]+", "-", s)`.  The flag records whether the previous character
was part of a whitespace run. -/
def subSpaceRuns : List Char → Bool → List Char
  | [], _ => []
  | c :: cs, prevWs =>
    if isPySpace c then
      if prevWs then subSpaceRuns cs true else '-' :: subSpaceRuns cs true
    else c :: subSpaceRuns cs false

/-- Replacement of every maximal run of `-` by a single `-`, i.e. Python
`re.sub(r"-+", "-", s)`.  The flag records whether the previous character was
part of a hyphen run. -/
def subHyphenRuns : List Char → Bool → List Char
  | [], _ => []
  | c :: cs, prevH =>
    if c = '-' then
      if prevH then subHyphenRuns cs true else '-' :: subHyphenRuns cs true
    else c :: subHyphenRuns cs false

/-- Decidable check that a character list contains no two adjacent hyphens. -/
def noDoubleHyphen : List Char → Bool
  | [] => true
  | [_] => true
  | a :: b :: t => !(a == '-' && b == '-') && noDoubleHyphen (b :: t)

namespace Build

/-! ### `build-synonym-clusters.py` -/

/-- `FORM_MODIFIERS` from `build-synonym-clusters.py` (a Python set; modelled
as a list, only membership is ever used). -/
def FORM_MODIFIERS : List String :=
  ["powder", "powdered", "ground", "granulated", "granules", "flakes", "flaked",
   "minced", "chopped", "diced", "sliced", "shredded", "grated", "crushed",
   "whole", "halved", "quartered", "cubed", "mashed", "pureed",
   "fresh", "dried", "dry", "frozen", "canned", "pickled", "smoked", "cured",
   "roasted", "toasted",
   "raw", "cooked", "uncooked", "blanched", "peeled", "seeded", "pitted",
   "boneless", "skinless", "melted", "softened",
   "large", "medium", "small", "baby", "mini", "jumbo", "thin", "thick",
   "organic", "natural", "pure", "real", "imitation", "low-fat", "nonfat",
   "unsalted", "salted", "sweetened", "unsweetened"]

/-- `LEMMAS` from `build-synonym-clusters.py`. -/
def LEMMAS : List (String × String) :=
  [("powdered", "powder"), ("granulated", "granules"), ("flaked", "flakes"),
   ("dried", "dry"), ("roasted", "roast"), ("toasted", "toast"),
   ("smoked", "smoke"), ("minced", "mince"), ("chopped", "chop"),
   ("diced", "dice"), ("sliced", "slice"), ("shredded", "shred"),
   ("grated", "grate"), ("crushed", "crush"), ("peeled", "peel"),
   ("seeded", "seed"), ("pitted", "pit"), ("halved", "half"),
   ("quartered", "quarter"), ("cubed", "cube"), ("mashed", "mash"),
   ("pureed", "puree"), ("cloves", "clove"), ("heads", "head"),
   ("bulbs", "bulb"), ("stalks", "stalk"), ("leaves", "leaf"),
   ("sprigs", "sprig"), ("bunches", "bunch"), ("ribs", "rib"),
   ("ears", "ear"), ("strips", "strip"), ("pieces", "piece")]

/-- `UNIT_WORDS` from `build-synonym-clusters.py`. -/
def UNIT_WORDS : List String :=
  ["clove", "cloves", "head", "heads", "bulb", "bulbs", "stalk", "stalks",
   "leaf", "leaves", "sprig", "sprigs", "bunch", "bunches", "rib", "ribs",
   "ear", "ears", "strip", "strips", "piece", "pieces", "slice", "slices",
   "cup", "cups", "tablespoon", "tablespoons", "teaspoon", "teaspoons",
   "pound", "pounds", "ounce", "ounces", "can", "cans", "package", "packages"]

/-- Characters kept by `re.sub(r"[^a-z0-9\s-]", " ", ...)` in `tokenize`. -/
def keepTokChar (c : Char) : Bool :=
  decide (('a' ≤ c ∧ c ≤ 'z') ∨ ('0' ≤ c ∧ c ≤ '9')) || isPySpace c || c == '-'

/-- `tokenize` from `build-synonym-clusters.py`: lowercase, replace every
character outside `[a-z0-9\s-]` by a space, split on whitespace, keep tokens
of length at least 2. -/
def tokenize (text : String) : List String :=
  ((splitWsAux ((pyLower text).data.map fun c =>
      if keepTokChar c then c else ' ') []).map String.mk).filter
    fun t => 2 ≤ t.length

/-- `lemmatize` from `build-synonym-clusters.py`: `LEMMAS.get(word, word)`. -/
def lemmatize (word : String) : String :=
  (lookupStr LEMMAS word).getD word

/-- The token-classification loop of `extract_base_and_form`, written as a
head recursion: the loop appends each token's contribution in order, so
consing the head token's contribution onto the result for the remaining
tokens produces the same two lists. -/
def splitTokens : List String → List String × List String
  | [] => ([], [])
  | t :: ts =>
    let l := lemmatize t
    let rest := splitTokens ts
    if t ∈ FORM_MODIFIERS ∨ l ∈ FORM_MODIFIERS then (rest.1, l :: rest.2)
    else if t ∈ UNIT_WORDS then rest
    else (t :: rest.1, rest.2)

/-- `extract_base_and_form` from `build-synonym-clusters.py`. -/
def extractBaseAndForm (ingredient : String) : List String × List String :=
  splitTokens (tokenize ingredient)

/-- Python `"+".join`. -/
def joinPlus : List String → String
  | [] => ""
  | [s] => s
  | s :: rest => s ++ "+" ++ joinPlus rest

/-- Ascending stable sort of strings (Python `sorted`). -/
def sortStrings (l : List String) : List String :=
  List.insertionSort (fun a b : String => a.data ≤ b.data) l

/-- `make_cluster_key` from `build-synonym-clusters.py`. -/
def makeClusterKey (base form : List String) : String :=
  let baseKey := if base = [] then "_empty_" else joinPlus (sortStrings base)
  let formKey := if form = [] then "base" else joinPlus (sortStrings form)
  baseKey ++ "|" ++ formKey

/-- One member of a cluster group: the dict
`{"name": ing, "count": count, "base": base, "form": form}`. -/
structure Member where
  name : String
  count : Nat
  base : List String
  form : List String
deriving DecidableEq

/-- The per-item filtering of the clustering loop in `main`: items below the
frequency floor and items with no base token are dropped, everything else
becomes a `Member`. -/
def toMember (minFreq : Nat) (p : String × Nat) : Option Member :=
  if p.2 < minFreq then none
  else
    let bf := extractBaseAndForm p.1
    if bf.1 = [] then none else some ⟨p.1, p.2, bf.1, bf.2⟩

/-- The kept members of the frequency table, in input order. -/
def keptMembers (freq : List (String × Nat)) (minFreq : Nat) : List Member :=
  freq.filterMap (toMember minFreq)

/-- The cluster key a member is grouped under. -/
def memberKey (m : Member) : String :=
  makeClusterKey m.base m.form

/-- The group of one cluster key (the `defaultdict` appends members in scan
order, so the group is the in-order sublist of kept members with that key). -/
def groupMembers (freq : List (String × Nat)) (minFreq : Nat) (k : String) :
    List Member :=
  (keptMembers freq minFreq).filter fun m => memberKey m = k

/-- First-seen deduplication of a key list (the iteration order of a Python
`defaultdict` is key-insertion order). -/
def dedupFirstAux : List String → List String → List String
  | _, [] => []
  | seen, k :: ks =>
    if k ∈ seen then dedupFirstAux seen ks
    else k :: dedupFirstAux (k :: seen) ks

/-- The cluster keys in first-seen order. -/
def clusterKeys (freq : List (String × Nat)) (minFreq : Nat) : List String :=
  dedupFirstAux [] ((keptMembers freq minFreq).map memberKey)

/-- Python `members.sort(key=lambda x: -x["count"])`: a stable descending
sort by count (insertion sort is stable, like Python's sort). -/
def sortMembersDesc (ms : List Member) : List Member :=
  List.insertionSort (fun a b : Member => b.count ≤ a.count) ms

/-- One output cluster record. -/
structure Cluster where
  canonical : String
  count : Nat
  base : List String
  form : String
  aliases : List (String × Nat)
  totalUsage : Nat
deriving DecidableEq

/-- The per-group body of the output loop in `main`: sort members by
descending count, take the head as canonical, drop low-signal singletons,
filter aliases by the per-member floor 5, and keep the cluster only if it has
aliases or a canonical count of at least 50. -/
def emitCluster (ms : List Member) : Option Cluster :=
  match sortMembersDesc ms with
  | [] => none
  | canonical :: rest =>
    if rest = [] ∧ canonical.count < 50 then none
    else if ((rest.filter fun m => 5 ≤ m.count).map fun m =>
        (m.name, m.count)) ≠ [] ∨ 50 ≤ canonical.count then
      some ⟨canonical.name, canonical.count, canonical.base,
        if canonical.form = [] then "base" else joinPlus canonical.form,
        (rest.filter fun m => 5 ≤ m.count).map fun m => (m.name, m.count),
        ((canonical :: rest).map Member.count).sum⟩
    else none

/-- Python `output_clusters.sort(key=lambda x: -x["totalUsage"])`: stable
descending sort by total usage. -/
def sortClustersByUsage (cs : List Cluster) : List Cluster :=
  List.insertionSort (fun a b : Cluster => b.totalUsage ≤ a.totalUsage) cs

/-- The Cluster Builder pipeline of `main` in `build-synonym-clusters.py`:
group the kept members by cluster key (keys in first-seen order), emit one
cluster per surviving group, and sort by descending total usage. -/
def buildClusters (freq : List (String × Nat)) (minFreq : Nat) :
    List Cluster :=
  sortClustersByUsage
    ((clusterKeys freq minFreq).filterMap fun k =>
      emitCluster (groupMembers freq minFreq k))

/-! Spec-side definitions for the Normalizer claims. -/

/-- Classification of a single token. -/
inductive TokenClass where
  | base (w : String)
  | form (w : String)
  | unit
deriving DecidableEq

/-- The classification rule as the spec states it, per token `t` with lemma
`l`: `form` (emitting `l`) iff `t` or `l` is a form modifier; otherwise `unit`
(discarded) iff `t` is a unit word; otherwise `base` (emitting `t`
verbatim). -/
def classifyToken (t : String) : TokenClass :=
  if t ∈ FORM_MODIFIERS ∨ lemmatize t ∈ FORM_MODIFIERS then
    TokenClass.form (lemmatize t)
  else if t ∈ UNIT_WORDS then TokenClass.unit
  else TokenClass.base t

/-- The base-term emitted by a token, if any. -/
def baseEmit (t : String) : Option String :=
  match classifyToken t with
  | TokenClass.base w => some w
  | _ => none

/-- The form-modifier emitted by a token, if any. -/
def formEmit (t : String) : Option String :=
  match classifyToken t with
  | TokenClass.form w => some w
  | _ => none

/-- Spec-side canonical selection: the first member of the group (in
first-seen order) whose count is maximal. -/
def maxCount (ms : List Member) : Nat :=
  (ms.map Member.count).foldr max 0

/-- The first member reaching the maximal count. -/
def firstMax (ms : List Member) : Option Member :=
  ms.find? fun m => maxCount ms ≤ m.count

/-- The canonical member the Cluster Builder selects: the head of the stable
descending sort by count. -/
def canonicalOf (ms : List Member) : Option Member :=
  (sortMembersDesc ms).head?

/-- The frequency table of the end-to-end example in §8 of the spec. -/
def garlicFreq : List (String × Nat) :=
  [("fresh garlic", 100), ("garlic", 80), ("minced garlic", 60), ("salt", 10)]

end Build

namespace Merge

/-! ### `merge-clusters-to-ontology.py` -/

/-- An ontology entry, as the Merger sees it.  The Merger reads `slug` and
`surfaceForms` (`entry.get("surfaceForms", [])`, so an absent key behaves
exactly like `[]`), conditionally writes `surfaceForms`, `recipeCount` and
`confirmTokens` (`none` models an absent key), and never touches any other
key of the dict; `extra` stands for those untouched keys. -/
structure Entry where
  slug : String
  surfaceForms : List String
  recipeCount : Option Nat
  confirmTokens : Option (List (List String))
  extra : List (String × String) := []
deriving DecidableEq

/-- A cluster as read by the Merger: `canonical`, the alias records (name and
count) and `totalUsage`; the remaining fields of the cluster report are never
read. -/
structure MCluster where
  canonical : String
  aliases : List (String × Nat)
  totalUsage : Nat
deriving DecidableEq

/-- The external synonym table: lowercase string to token groups. -/
abbrev Table := List (String × List (List String))

/-- The `surface_to_slug` dict.  Updates prepend, lookups take the first
match, so the lookup always returns the most recent write, exactly like a
Python dict. -/
abbrev Index := List (String × String)

def idxGet : Index → String → Option String
  | [], _ => none
  | (k, v) :: rest, q => if k = q then some v else idxGet rest q

def idxSet (i : Index) (k v : String) : Index :=
  (k, v) :: i

/-- `slugify` from `merge-clusters-to-ontology.py` (identical to the spec's
§4.3 rule): lowercase, strip, delete characters outside `[a-z0-9\s-]`,
replace whitespace runs by `-`, collapse `-` runs, trim hyphens. -/
def keepSlugChar (c : Char) : Bool :=
  decide (('a' ≤ c ∧ c ≤ 'z') ∨ ('0' ≤ c ∧ c ≤ '9')) || isPySpace c || c == '-'

/-- The shared first four steps of the two scripts' `slugify` functions
(lines 39-41 of the Merger and lines 53-55 of the Expander are identical
textually): `s.lower().strip()`, `re.sub(r"[^a-z0-9\s-]", "", s)`,
`re.sub(r"[\s]+", "-", s)`. -/
def slugCore (text : String) : List Char :=
  subSpaceRuns ((pyStrip (pyLower text).data).filter keepSlugChar) false

/-- The Merger's `slugify`: `slugCore`, then `re.sub(r"-+", "-", s)`, then
`s.strip("-")`. -/
def slugify (text : String) : String :=
  String.mk (trimHyphens (subHyphenRuns (slugCore text) false))

/-- `surface_to_slug` built from the ontology: every entry's surface forms,
lowercased, mapped to the entry's slug; later writes win. -/
def buildIndex (ont : List Entry) : Index :=
  ont.foldl
    (fun i e => e.surfaceForms.foldl (fun i2 sf => idxSet i2 (pyLower sf) e.slug) i)
    []

/-- The entry a slug resolves to.  `slug_to_entry` is a dict comprehension
over the ontology (later entries win on duplicate slugs) whose values are
the shared mutable entry dicts, so resolving a slug always yields the
current state of the last entry carrying it. -/
def getLast : List Entry → String → Option Entry
  | [], _ => none
  | e :: es, s =>
    match getLast es s with
    | some r => some r
    | none => if e.slug = s then some e else none

/-- Replacement of the entry `getLast` resolves (the last entry with the
given slug) by a new value — the in-place mutation of that shared dict. -/
def setLast : List Entry → String → Entry → List Entry
  | [], _, _ => []
  | e :: es, s, v =>
    match getLast es s with
    | some _ => e :: setLast es s v
    | none => if e.slug = s then v :: es else e :: es

/-- The running statistics dict (the three `*_added` counters and the two
cluster counters used by the merge loop; `new_entries_created` stays 0). -/
structure Stats where
  surface_forms_added : Nat := 0
  confirm_tokens_added : Nat := 0
  recipe_counts_added : Nat := 0
  new_entries_created : Nat := 0
  clusters_matched : Nat := 0
  clusters_unmatched : Nat := 0
deriving DecidableEq

/-- One record of the unmatched-clusters output. -/
structure URec where
  canonical : String
  count : Nat
  aliases : List String
deriving DecidableEq

/-- The mutable state of the merge run: the ontology entries, the
`surface_to_slug` index, the statistics and the unmatched output. -/
structure MergeState where
  ontology : List Entry
  idx : Index
  stats : Stats
  unmatched : List URec
deriving DecidableEq

/-! Definitions used to state the idempotence claim. -/

/-- The lowercased surface forms of one entry. -/
def lowForms (e : Entry) : List String :=
  e.surfaceForms.map pyLower

/-- The lowercased surface forms of the whole ontology. -/
def allLowForms (ont : List Entry) : List String :=
  ont.flatMap lowForms

/-- `all_forms` of a cluster: the canonical followed by all alias names. -/
def allFormsOf (c : MCluster) : List String :=
  c.canonical :: c.aliases.map Prod.fst

/-- The unmatched record a cluster produces. -/
def urecOf (c : MCluster) : URec :=
  ⟨c.canonical, c.totalUsage, (c.aliases.take 5).map Prod.fst⟩

/-- The §3 invariant on an ontology: a lowercased surface form belongs to at
most one entry. -/
def FormsDisjoint (ont : List Entry) : Prop :=
  ont.Pairwise fun a b => ∀ f ∈ lowForms a, f ∉ lowForms b

instance (ont : List Entry) : Decidable (FormsDisjoint ont) :=
  List.instDecidablePairwise ont

/-- A cluster is settled in an ontology: some resolvable entry carries all
its surface forms (lowercased), a recipe count at least its totalUsage, and
confirm tokens whenever the synonym table has the canonical's key. -/
def Settled (table : Table) (ont : List Entry) (c : MCluster) : Prop :=
  ∃ s e, getLast ont s = some e ∧
    (∀ f ∈ allFormsOf c, pyLower f ∈ lowForms e) ∧
    (∃ v, e.recipeCount = some v ∧ c.totalUsage ≤ v) ∧
    ((lookupStr table (pyLower c.canonical)).isSome → e.confirmTokens ≠ none)

/-- A cluster fails all three match attempts against an ontology: its
lowercased canonical is no surface form, its canonical's slug is no existing
slug, and no lowercased alias name is a surface form. -/
def ThreeFail (ont : List Entry) (c : MCluster) : Prop :=
  pyLower c.canonical ∉ allLowForms ont ∧
  slugify c.canonical ∉ ont.map Entry.slug ∧
  ∀ a ∈ c.aliases, pyLower a.1 ∉ allLowForms ont

instance (ont : List Entry) (c : MCluster) : Decidable (ThreeFail ont c) :=
  instDecidableAnd

/-- How one entry can evolve during a merge run: the slug is fixed, surface
forms only grow, the recipe count only increases, confirm tokens are never
overwritten or removed. -/
def EntryEvolve (e e2 : Entry) : Prop :=
  e2.slug = e.slug ∧
  (∀ f ∈ e.surfaceForms, f ∈ e2.surfaceForms) ∧
  (∀ v, e.recipeCount = some v → ∃ w, e2.recipeCount = some w ∧ v ≤ w) ∧
  (∀ t, e.confirmTokens = some t → e2.confirmTokens = some t)

/-- Evolution with unchanged surface forms (the trailing synonym-table loop
only ever sets confirm tokens). -/
def EntryKeep (e e2 : Entry) : Prop :=
  EntryEvolve e e2 ∧ e2.surfaceForms = e.surfaceForms

/-- The state invariant of a merge pass driven by the slug list of its own
input ontology: the slug multiset never changes, every index binding points
to an existing entry carrying the bound form, and every surface form of the
current ontology is in the index. -/
def StOk (slugs : List String) (st : MergeState) : Prop :=
  st.ontology.map Entry.slug = slugs ∧
  (∀ k s, idxGet st.idx k = some s →
    ∃ e ∈ st.ontology, e.slug = s ∧ k ∈ lowForms e) ∧
  (∀ k, k ∈ allLowForms st.ontology → (idxGet st.idx k).isSome)

/-- Combination step for `lastOf`: keep the later result if there is one. -/
def lastOfAux (x : Entry) : Option Entry → Option Entry
  | some r => some r
  | none => some x

/-- The last element of a list, if any (structural helper used to relate
`getLast` to filtering). -/
def lastOf : List Entry → Option Entry
  | [] => none
  | x :: xs => lastOfAux x (lastOf xs)

/-- The match search of the merge loop, in strict priority order:
(1) lowercased canonical in the surface-form index; (2) the canonical's slug
among the existing slugs (`slugs` is the key set of `slug_to_entry`, fixed at
run start — entry slugs are never modified); (3) the first alias whose
lowercased name is in the surface-form index. -/
def findMatch (idx : Index) (slugs : List String) (c : MCluster) :
    Option String :=
  match idxGet idx (pyLower c.canonical) with
  | some s => some s
  | none =>
    if slugify c.canonical ∈ slugs then some (slugify c.canonical)
    else c.aliases.findSome? fun a => idxGet idx (pyLower a.1)

/-- One step of the surface-form union of the matched branch: append the
form if its lowercase is not yet among the entry's lowercased surface forms
(`existing_forms` is exactly the set of lowercased current forms at each
step), counting additions. -/
def addFormsStep (acc : Entry × Nat) (f : String) : Entry × Nat :=
  if pyLower f ∈ acc.1.surfaceForms.map pyLower then acc
  else ({ acc.1 with surfaceForms := acc.1.surfaceForms ++ [f] }, acc.2 + 1)

/-- The surface-form union of the matched branch over `all_forms`. -/
def addForms (e : Entry) (forms : List String) : Entry × Nat :=
  forms.foldl addFormsStep (e, 0)

/-- The unmatched branch of the merge loop: count the cluster and append its
record (canonical, totalUsage, first 5 alias names) to the unmatched
output. -/
def unmatchedStep (st : MergeState) (c : MCluster) : MergeState :=
  { st with
    stats := { st.stats with
      clusters_unmatched := st.stats.clusters_unmatched + 1 }
    unmatched := st.unmatched ++
      [⟨c.canonical, c.totalUsage, (c.aliases.take 5).map Prod.fst⟩] }

/-- The recipe-count update of the matched branch: set the count if the key
is missing or the stored value is below the cluster's totalUsage, and report
whether the statistic is incremented. -/
def rcUpdate (tot : Nat) (e : Entry) : Entry × Nat :=
  match e.recipeCount with
  | none => ({ e with recipeCount := some tot }, 1)
  | some v =>
    if v < tot then ({ e with recipeCount := some tot }, 1) else (e, 0)

/-- The confirm-token update of the matched branch: first-write-wins from
the synonym table keyed by the lowercased canonical. -/
def ctUpdate (table : Table) (canonicalLower : String) (e : Entry) :
    Entry × Nat :=
  match lookupStr table canonicalLower, e.confirmTokens with
  | some toks, none => ({ e with confirmTokens := some toks }, 1)
  | _, _ => (e, 0)

/-- The matched branch of the merge loop: union the surface forms, update
the recipe count and the confirm tokens on the matched entry, register every
form of the cluster in the index under the matched slug, and bump the
statistics. -/
def matchedStep (table : Table) (st : MergeState) (c : MCluster)
    (mslug : String) (e : Entry) : MergeState :=
  let fa := addForms e (allFormsOf c)
  let rc := rcUpdate c.totalUsage fa.1
  let ct := ctUpdate table (pyLower c.canonical) rc.1
  { ontology := setLast st.ontology mslug ct.1
    idx := (allFormsOf c).foldl (fun i f => idxSet i (pyLower f) mslug) st.idx
    stats := { st.stats with
      clusters_matched := st.stats.clusters_matched + 1
      surface_forms_added := st.stats.surface_forms_added + fa.2
      recipe_counts_added := st.stats.recipe_counts_added + rc.2
      confirm_tokens_added := st.stats.confirm_tokens_added + ct.2 }
    unmatched := st.unmatched }

/-- The entry produced by the matched branch: surface-form union, then
recipe-count update, then confirm-token update. -/
def mergedEntry (table : Table) (c : MCluster) (e : Entry) : Entry :=
  (ctUpdate table (pyLower c.canonical)
    (rcUpdate c.totalUsage (addForms e (allFormsOf c)).1).1).1

/-- The body of `for cluster in clusters` in `main`.  Python tests
`if matched_slug:`, so an empty-string slug (false-y) also routes to the
unmatched branch.  A matched slug always resolves to an entry (index values
and slug matches name existing entries); the `none` fallback of `getLast` is
unreachable (Python would raise a `KeyError` there). -/
def mergeStep (table : Table) (slugs : List String) (st : MergeState)
    (c : MCluster) : MergeState :=
  match findMatch st.idx slugs c with
  | some mslug =>
    if mslug = "" then unmatchedStep st c
    else
      match getLast st.ontology mslug with
      | none => st
      | some e => matchedStep table st c mslug e
  | none => unmatchedStep st c

/-- One step of the trailing loop over the synonym table: Python's
`slug = surface_to_slug.get(key); if slug and slug in slug_to_entry:` (an
empty-string slug is false-y), then first-write-wins on `confirmTokens`. -/
def secondStep (slugs : List String) (st : MergeState)
    (kv : String × List (List String)) : MergeState :=
  match idxGet st.idx kv.1 with
  | none => st
  | some s =>
    if s ≠ "" ∧ s ∈ slugs then
      match getLast st.ontology s with
      | none => st
      | some e =>
        match e.confirmTokens with
        | none =>
          { st with
            ontology := setLast st.ontology s { e with confirmTokens := some kv.2 }
            stats := { st.stats with
              confirm_tokens_added := st.stats.confirm_tokens_added + 1 } }
        | some _ => st
    else st

/-- The trailing `for key, tokens in synonym_table.items()` loop. -/
def secondPass (slugs : List String) (table : Table) (st : MergeState) :
    MergeState :=
  table.foldl (secondStep slugs) st

/-- Python `ontology.sort(key=lambda e: e["slug"])`: stable ascending sort
by slug. -/
def sortBySlug (ont : List Entry) : List Entry :=
  List.insertionSort (fun a b : Entry => a.slug.data ≤ b.slug.data) ont

/-- The whole merge run of `main` in `merge-clusters-to-ontology.py`: build
the two indexes, process every cluster, run the trailing synonym-table loop,
and sort the ontology by slug. -/
def merge (clusters : List MCluster) (ontology : List Entry) (table : Table) :
    MergeState :=
  let slugs := ontology.map Entry.slug
  let st1 := clusters.foldl (mergeStep table slugs)
    ⟨ontology, buildIndex ontology, {}, []⟩
  let st2 := secondPass slugs table st1
  { st2 with ontology := sortBySlug st2.ontology }

/-! Spec-side definitions for the Merger claims. -/

/-- The spec's ordered list of matcher strategies (§4.3, §9): canonical
surface-form lookup, then canonical slug, then alias surface-form lookup. -/
def matchStrategies (idx : Index) (slugs : List String) (c : MCluster) :
    List (Option String) :=
  [idxGet idx (pyLower c.canonical),
   if slugify c.canonical ∈ slugs then some (slugify c.canonical) else none,
   c.aliases.findSome? fun a => idxGet idx (pyLower a.1)]

/-- First-success combination of the strategy list. -/
def specMatch (idx : Index) (slugs : List String) (c : MCluster) :
    Option String :=
  (matchStrategies idx slugs c).findSome? id



end Merge

namespace Expand

/-! ### `expand-ontology-from-clusters.py` -/

/-- A best FDC candidate from the precomputed gaps artifact: description,
category and score.  The score is a float only copied around, never computed
with; it is modelled as a rational number. -/
structure FdcCand where
  description : String
  category : Option String
  score : Rat
deriving DecidableEq

/-- An ontology entry as the Expander sees it: it reads `slug` and
`surfaceForms` of existing entries and creates entries carrying `slug`,
`displayName`, `surfaceForms`, `recipeCount` and `fdcCandidate` (the created
`fdcCandidate` key is always present, possibly with the explicit null
marker — hence `Option (Option FdcCand)`). -/
structure XEntry where
  slug : String
  displayName : Option String
  surfaceForms : List String
  recipeCount : Option Nat
  fdcCandidate : Option (Option FdcCand)
deriving DecidableEq

/-- One record of the unmatched-clusters input. -/
structure UCluster where
  canonical : String
  count : Nat
  aliases : List String
deriving DecidableEq

/-- `normalize_surface`: lowercase, strip, collapse whitespace runs to
single spaces (`" ".join(text.lower().strip().split())`). -/
def normalizeSurface (text : String) : String :=
  String.intercalate " "
    ((splitWsAux (pyLower text).data []).map String.mk)

/-- `slugify` from `expand-ontology-from-clusters.py`: identical to the
Merger's up to and including the whitespace step, but with no
`re.sub(r"-+", "-", s)` line before the final `strip("-")`. -/
def slugify (text : String) : String :=
  String.mk (trimHyphens (Merge.slugCore text))

/-- Python `str.title()` on the ASCII range: the first alphabetic character
of every alphabetic run is uppercased, later ones lowercased. -/
def pyTitleAux : List Char → Bool → List Char
  | [], _ => []
  | c :: cs, prevAlpha =>
    if c.isAlpha then
      (if prevAlpha then c.toLower else c.toUpper) :: pyTitleAux cs true
    else c :: pyTitleAux cs false

def pyTitle (s : String) : String :=
  String.mk (pyTitleAux s.data false)

/-- The lowercased surface forms of the current ontology
(`existing_surfaces`). -/
def allLowSurfaces (ont : List XEntry) : List String :=
  ont.flatMap fun e => e.surfaceForms.map pyLower

/-- The surface-form assembly of the expander loop: start from the
normalized canonical, then append each normalized alias not yet taken and
not present in the pre-expansion ontology snapshot.  The running list is
exactly the `seen` set. -/
def mkSurfaces (canonical : String) (aliases : List String)
    (existingSurfaces : List String) : List String :=
  aliases.foldl
    (fun acc a =>
      let na := normalizeSurface a
      if na ∈ acc ∨ na ∈ existingSurfaces then acc else acc ++ [na])
    [normalizeSurface canonical]

/-- The body of `for cluster in clusters` in the Expander's `main`: skip if
the canonical's slug or normalized form is already present in the
pre-expansion snapshot, otherwise build the new entry, attaching the FDC
candidate found by canonical-then-aliases lookup (or the explicit null
marker). -/
def expandStep (existingSlugs existingSurfaces : List String)
    (fdc : List (String × FdcCand)) (c : UCluster) : Option XEntry :=
  if slugify c.canonical ∈ existingSlugs then none
  else if normalizeSurface c.canonical ∈ existingSurfaces then none
  else
    let fdcMatch :=
      match lookupStr fdc (pyLower c.canonical) with
      | some m => some m
      | none => c.aliases.findSome? fun a => lookupStr fdc (pyLower a)
    some
      { slug := slugify c.canonical
        displayName := some (pyTitle c.canonical)
        surfaceForms := mkSurfaces c.canonical c.aliases existingSurfaces
        recipeCount := some c.count
        fdcCandidate := some fdcMatch }

/-- The new entries of one expansion run: clusters filtered by the minimum
count, each checked and assembled against the pre-expansion snapshot
(`existing_slugs` and `existing_surfaces` are never updated inside the
loop). -/
def newEntries (ont : List XEntry) (clusters : List UCluster)
    (fdc : List (String × FdcCand)) (minCount : Nat) : List XEntry :=
  (clusters.filter fun c => minCount ≤ c.count).filterMap
    (expandStep (ont.map XEntry.slug) (allLowSurfaces ont) fdc)

/-- Python `new_entries.sort(key=lambda x: -x["recipeCount"])`: stable
descending sort by recipe count (created entries always carry the key). -/
def sortByCountDesc (es : List XEntry) : List XEntry :=
  List.insertionSort
    (fun a b : XEntry => b.recipeCount.getD 0 ≤ a.recipeCount.getD 0) es

/-- Python `ontology.sort(key=lambda e: e["slug"])` for the expander. -/
def sortXBySlug (es : List XEntry) : List XEntry :=
  List.insertionSort (fun a b : XEntry => a.slug.data ≤ b.slug.data) es

/-- The whole expansion run of `main` in
`expand-ontology-from-clusters.py`: compute the new entries, extend the
ontology with them (sample-sorted by descending recipe count first, as the
script does before extending) and sort by slug. -/
def expand (ont : List XEntry) (clusters : List UCluster)
    (fdc : List (String × FdcCand)) (minCount : Nat) : List XEntry :=
  sortXBySlug (ont ++ sortByCountDesc (newEntries ont clusters fdc minCount))

end Expand

namespace Build

/-! ### Lemmas and claim theorems for the Cluster Builder -/

theorem splitTokens_eq_filterMap (ts : List String) :
    splitTokens ts = (ts.filterMap baseEmit, ts.filterMap formEmit) := by
  induction ts with
  | nil => rfl
  | cons t ts ih =>
    by_cases hf : t ∈ FORM_MODIFIERS ∨ lemmatize t ∈ FORM_MODIFIERS
    · simp [splitTokens, ih, List.filterMap_cons, baseEmit, formEmit,
        classifyToken, hf]
    · by_cases hu : t ∈ UNIT_WORDS
      · simp [splitTokens, ih, List.filterMap_cons, baseEmit, formEmit,
          classifyToken, hf, hu]
      · simp [splitTokens, ih, List.filterMap_cons, baseEmit, formEmit,
          classifyToken, hf, hu]

/-- C6: for every token `t` with lemma `l`, `extract_base_and_form`
classifies `t` as `form` (emitting `l`) iff `t` or `l` is in the
form-modifier set; otherwise as `unit` (discarded) iff `t` is in the
unit-word set; otherwise as `base`, emitting `t` verbatim.  `classifyToken`
is the spec's rule written out literally (so a token in both the form and
unit sets resolves to `form`, the form check coming first), and the code's
splitter agrees with it on every token of every ingredient string. -/
theorem extract_base_and_form_classifies (ingredient : String) :
    extractBaseAndForm ingredient =
      ((tokenize ingredient).filterMap baseEmit,
       (tokenize ingredient).filterMap formEmit) :=
  splitTokens_eq_filterMap (tokenize ingredient)

/-- C4: on the end-to-end example frequency table with `min_freq = 5`, the
Cluster Builder emits exactly the three singleton garlic clusters
(`fresh garlic` with base `garlic` and form `fresh`; `garlic` with empty
form; `minced garlic` with form `mince`), each kept because its canonical
count is at least 50, and `salt` (count 10, no aliases) is excluded. -/
theorem garlic_example_clusters :
    buildClusters garlicFreq 5 =
      [⟨"fresh garlic", 100, ["garlic"], "fresh", [], 100⟩,
       ⟨"garlic", 80, ["garlic"], "base", [], 80⟩,
       ⟨"minced garlic", 60, ["garlic"], "mince", [], 60⟩] ∧
    ∀ c ∈ buildClusters garlicFreq 5, c.canonical ≠ "salt" := by
  decide

/-- C7: whenever a group of members is emitted as a cluster, every listed
alias has count at least the alias floor 5 (so a non-canonical member with a
lower count, e.g. 3, is excluded from the alias list), while `totalUsage` is
the sum of the counts of all members of the group, the excluded ones
included. -/
theorem emitCluster_alias_floor_totalUsage (ms : List Member) (c : Cluster)
    (h : emitCluster ms = some c) :
    (∀ a ∈ c.aliases, 5 ≤ a.2) ∧ c.totalUsage = (ms.map Member.count).sum := by
  unfold emitCluster at h
  split at h
  · exact absurd h (by simp)
  · next canonical rest hs =>
    split at h
    · exact absurd h (by simp)
    · split at h
      · obtain rfl := Option.some.inj h
        constructor
        · intro a ha
          simp only [List.mem_map, List.mem_filter] at ha
          obtain ⟨m, ⟨_, hm5⟩, rfl⟩ := ha
          simpa using hm5
        · have hperm : (sortMembersDesc ms).Perm ms :=
            List.perm_insertionSort _ ms
          rw [hs] at hperm
          exact (hperm.map Member.count).sum_eq
      · exact absurd h (by simp)

/-- C7 witness: the group `[("a", 60), ("b", 3)]` is emitted; the count-3
member is excluded from the aliases yet still counted in `totalUsage`. -/
theorem emitCluster_alias_floor_totalUsage_witness :
    emitCluster [⟨"a", 60, ["a"], []⟩, ⟨"b", 3, ["a"], []⟩] =
        some ⟨"a", 60, ["a"], "base", [], 63⟩ ∧
      (∀ a ∈ (Cluster.mk "a" 60 ["a"] "base" [] 63).aliases, 5 ≤ a.2) ∧
      (Cluster.mk "a" 60 ["a"] "base" [] 63).totalUsage =
        ([⟨"a", 60, ["a"], []⟩, ⟨"b", 3, ["a"], []⟩].map Member.count).sum :=
  ⟨by decide,
   emitCluster_alias_floor_totalUsage
     [⟨"a", 60, ["a"], []⟩, ⟨"b", 3, ["a"], []⟩]
     ⟨"a", 60, ["a"], "base", [], 63⟩ (by decide)⟩

theorem mem_dedupFirstAux (seen xs : List String) (k : String) :
    k ∈ dedupFirstAux seen xs ↔ k ∈ xs ∧ k ∉ seen := by
  induction xs generalizing seen with
  | nil => simp [dedupFirstAux]
  | cons x xs ih =>
    by_cases hx : x ∈ seen
    · rw [dedupFirstAux, if_pos hx, ih]
      constructor
      · rintro ⟨h1, h2⟩
        exact ⟨List.mem_cons_of_mem _ h1, h2⟩
      · rintro ⟨h1, h2⟩
        rcases List.mem_cons.mp h1 with rfl | h1
        · exact absurd hx h2
        · exact ⟨h1, h2⟩
    · rw [dedupFirstAux, if_neg hx]
      constructor
      · intro hmem
        rcases List.mem_cons.mp hmem with rfl | h1
        · exact ⟨List.mem_cons_self _ _, hx⟩
        · obtain ⟨hm, hns⟩ := (ih (x :: seen)).mp h1
          exact ⟨List.mem_cons_of_mem _ hm,
            fun hk => hns (List.mem_cons_of_mem _ hk)⟩
      · rintro ⟨h1, h2⟩
        rcases List.mem_cons.mp h1 with rfl | h1
        · exact List.mem_cons_self _ _
        · by_cases hkx : k = x
          · exact hkx ▸ List.mem_cons_self _ _
          · refine List.mem_cons_of_mem _
              ((ih (x :: seen)).mpr ⟨h1, fun hk => ?_⟩)
            rcases List.mem_cons.mp hk with h3 | h3
            · exact hkx h3
            · exact h2 h3

theorem maxCount_cons (m : Member) (ms : List Member) :
    maxCount (m :: ms) = max m.count (maxCount ms) := rfl

theorem count_le_maxCount {ms : List Member} {m : Member} (h : m ∈ ms) :
    m.count ≤ maxCount ms := by
  induction ms with
  | nil => cases h
  | cons x xs ih =>
    rw [maxCount_cons]
    rcases List.mem_cons.mp h with rfl | h
    · exact Nat.le_max_left _ _
    · exact Nat.le_trans (ih h) (Nat.le_max_right _ _)

theorem firstMax_count {ms : List Member} {m : Member}
    (h : firstMax ms = some m) : m.count = maxCount ms := by
  have h1 := List.find?_some h
  have h2 := List.mem_of_find?_eq_some h
  exact Nat.le_antisymm (count_le_maxCount h2) (by simpa using h1)

theorem canonicalOf_eq_firstMax (ms : List Member) :
    canonicalOf ms = firstMax ms := by
  induction ms with
  | nil => rfl
  | cons m t ih =>
    rcases ht : sortMembersDesc t with _ | ⟨h, st⟩
    · have ht0 : t = [] := by
        have hlen := congrArg List.length ht
        simp only [sortMembersDesc, List.length_insertionSort,
          List.length_nil] at hlen
        exact List.length_eq_zero.mp hlen
      subst ht0
      simp [canonicalOf, sortMembersDesc, firstMax, maxCount]
    · have hhead : firstMax t = some h := by
        rw [← ih]
        simp [canonicalOf, ht]
      have hcnt : h.count = maxCount t := firstMax_count hhead
      have hsm : canonicalOf (m :: t) =
          (List.orderedInsert (fun a b : Member => b.count ≤ a.count) m
            (h :: st)).head? := by
        rw [canonicalOf, sortMembersDesc, List.insertionSort,
          show List.insertionSort (fun a b : Member => b.count ≤ a.count) t
            = sortMembersDesc t from rfl, ht]
      by_cases hle : h.count ≤ m.count
      · have hmax : maxCount (m :: t) = m.count := by
          rw [maxCount_cons, ← hcnt]
          exact Nat.max_eq_left hle
        have hcan : canonicalOf (m :: t) = some m := by
          rw [hsm, List.orderedInsert, if_pos hle]
          rfl
        have hp : (fun x : Member =>
            decide (maxCount (m :: t) ≤ x.count)) m = true := by
          simp [hmax]
        rw [hcan, firstMax,
          @List.find?_cons_of_pos Member
            (fun x : Member => decide (maxCount (m :: t) ≤ x.count)) m t hp]
      · have hlt : m.count < h.count := Nat.lt_of_not_le hle
        have hmax : maxCount (m :: t) = maxCount t := by
          rw [maxCount_cons]
          exact Nat.max_eq_right (Nat.le_of_lt (hcnt ▸ hlt))
        have hcan : canonicalOf (m :: t) = some h := by
          rw [hsm, List.orderedInsert, if_neg hle]
          rfl
        have hp : ¬ ((fun x : Member =>
            decide (maxCount (m :: t) ≤ x.count)) m = true) := by
          simp only [decide_eq_true_eq, hmax, ← hcnt]
          exact hle
        rw [hcan, firstMax,
          @List.find?_cons_of_neg Member
            (fun x : Member => decide (maxCount (m :: t) ≤ x.count)) m t hp,
          hmax]
        rw [← hhead, firstMax]

/-- C8: for every frequency table and every permutation of it, the Cluster
Builder produces the same set of cluster keys and, for each key, the same
multiset of group members; and within a group the canonical member is
exactly the first member (in first-seen order) attaining the maximal count —
i.e. it depends only on counts except that ties are broken by encounter
order. -/
theorem clustering_permutation_invariant
    (l l2 : List (String × Nat)) (minFreq : Nat) (hp : l.Perm l2)
    (g : List Build.Member) :
    (∀ k, (groupMembers l minFreq k).Perm (groupMembers l2 minFreq k)) ∧
    (∀ k, k ∈ clusterKeys l minFreq ↔ k ∈ clusterKeys l2 minFreq) ∧
    canonicalOf g = firstMax g := by
  refine ⟨fun k => ?_, fun k => ?_, canonicalOf_eq_firstMax g⟩
  · exact (hp.filterMap (toMember minFreq)).filter _
  · have hk : (keptMembers l minFreq).Perm (keptMembers l2 minFreq) :=
      hp.filterMap (toMember minFreq)
    rw [clusterKeys, clusterKeys, mem_dedupFirstAux, mem_dedupFirstAux]
    have hmap : k ∈ (keptMembers l minFreq).map memberKey ↔
        k ∈ (keptMembers l2 minFreq).map memberKey :=
      (hk.map memberKey).mem_iff
    constructor
    · rintro ⟨h, h2⟩
      exact ⟨hmap.mp h, h2⟩
    · rintro ⟨h, h2⟩
      exact ⟨hmap.mpr h, h2⟩

/-- C8 witness: a concrete permuted pair of tables and a concrete group. -/
theorem clustering_permutation_invariant_witness :
    ([("garlic", 80), ("salt", 10)] : List (String × Nat)).Perm
        [("salt", 10), ("garlic", 80)] ∧
      (∀ k, (groupMembers [("garlic", 80), ("salt", 10)] 5 k).Perm
        (groupMembers [("salt", 10), ("garlic", 80)] 5 k)) ∧
      canonicalOf [⟨"a", 40, ["a"], []⟩, ⟨"b", 55, ["b"], []⟩,
          ⟨"c", 55, ["c"], []⟩] =
        firstMax [⟨"a", 40, ["a"], []⟩, ⟨"b", 55, ["b"], []⟩,
          ⟨"c", 55, ["c"], []⟩] := by
  have h := clustering_permutation_invariant [("garlic", 80), ("salt", 10)]
    [("salt", 10), ("garlic", 80)] 5 (List.Perm.swap _ _ [])
    [⟨"a", 40, ["a"], []⟩, ⟨"b", 55, ["b"], []⟩, ⟨"c", 55, ["c"], []⟩]
  exact ⟨List.Perm.swap _ _ [], h.1, h.2.2⟩

end Build

namespace Merge

/-! ### Basic lemmas about the Merger state operations -/

theorem getLast_mem {l : List Entry} {s : String} {e : Entry}
    (h : getLast l s = some e) : e ∈ l := by
  induction l with
  | nil => cases h
  | cons x xs ih =>
    rw [getLast] at h
    cases hx : getLast xs s with
    | some r =>
      rw [hx] at h
      exact List.mem_cons_of_mem _ (ih (hx.trans h))
    | none =>
      rw [hx] at h
      by_cases hs : x.slug = s
      · rw [if_pos hs] at h
        exact (Option.some.inj h) ▸ List.mem_cons_self _ _
      · rw [if_neg hs] at h
        cases h

theorem getLast_slug {l : List Entry} {s : String} {e : Entry}
    (h : getLast l s = some e) : e.slug = s := by
  induction l with
  | nil => cases h
  | cons x xs ih =>
    rw [getLast] at h
    cases hx : getLast xs s with
    | some r =>
      rw [hx] at h
      exact ih (hx.trans h)
    | none =>
      rw [hx] at h
      by_cases hs : x.slug = s
      · rw [if_pos hs] at h
        exact (Option.some.inj h) ▸ hs
      · rw [if_neg hs] at h
        cases h

theorem getLast_setLast_self {l : List Entry} {s : String} {e : Entry}
    (v : Entry) (h : getLast l s = some e) (hv : v.slug = s) :
    getLast (setLast l s v) s = some v := by
  induction l with
  | nil => cases h
  | cons x xs ih =>
    rw [getLast] at h
    rw [setLast]
    cases hx : getLast xs s with
    | some r =>
      rw [hx] at h
      rw [getLast, ih (hx.trans h)]
    | none =>
      rw [hx] at h
      by_cases hs : x.slug = s
      · rw [if_pos hs]
        have hnone : getLast xs s = none := hx
        rw [getLast, hnone, if_pos hv]
      · rw [if_neg hs] at h
        cases h

theorem getLast_setLast_ne {l : List Entry} {s s2 : String} (v : Entry)
    (hv : v.slug = s) (hne : s2 ≠ s) :
    getLast (setLast l s v) s2 = getLast l s2 := by
  induction l with
  | nil => rfl
  | cons x xs ih =>
    rw [setLast]
    cases hx : getLast xs s with
    | some r =>
      rw [getLast, ih, getLast]
    | none =>
      by_cases hs : x.slug = s
      · rw [if_pos hs, getLast, getLast]
        cases hx2 : getLast xs s2 with
        | some r2 => rfl
        | none =>
          have hv2 : ¬ v.slug = s2 := by
            rw [hv]
            exact fun h2 => hne h2.symm
          have hx2n : ¬ x.slug = s2 := by
            rw [hs]
            exact fun h2 => hne h2.symm
          rw [if_neg hv2, if_neg hx2n]
      · rw [if_neg hs]

theorem exists_getLast_of_mem_slug {l : List Entry} {s : String}
    (h : s ∈ l.map Entry.slug) : ∃ e, getLast l s = some e := by
  induction l with
  | nil => cases h
  | cons x xs ih =>
    rw [getLast]
    cases hx : getLast xs s with
    | some r => exact ⟨r, rfl⟩
    | none =>
      rcases List.mem_cons.mp h with hs | hs
      · exact ⟨x, by rw [if_pos hs.symm]⟩
      · obtain ⟨e, he⟩ := ih hs
        rw [he] at hx
        cases hx

theorem secondStep_idx (slugs : List String) (st : MergeState)
    (kv : String × List (List String)) :
    (secondStep slugs st kv).idx = st.idx := by
  rw [secondStep]
  split
  · rfl
  · split
    · split
      · rfl
      · split
        · rfl
        · rfl
    · rfl

/-- What one `secondStep` does to the entry a slug resolves to: the entry
stays resolvable and any already-present confirm tokens are kept. -/
theorem secondStep_getLast (slugs : List String) (st : MergeState)
    (kv : String × List (List String)) {s : String} {e : Entry}
    (h : getLast st.ontology s = some e) :
    ∃ e2, getLast (secondStep slugs st kv).ontology s = some e2 ∧
      (∀ t0, e.confirmTokens = some t0 → e2.confirmTokens = some t0) := by
  rw [secondStep]
  split
  · exact ⟨e, h, fun _ ht => ht⟩
  · next s2 hidx =>
    split
    · next hc =>
      split
      · exact ⟨e, h, fun _ ht => ht⟩
      · next e2 hg =>
        split
        · next hct =>
          by_cases hs : s = s2
          · subst hs
            have hslug : ({ e2 with confirmTokens := some kv.2 } : Entry).slug
                = s := by
              show e2.slug = s
              exact getLast_slug hg
            refine ⟨{ e2 with confirmTokens := some kv.2 },
              getLast_setLast_self _ hg hslug, ?_⟩
            intro t0 ht0
            rw [h] at hg
            obtain rfl := Option.some.inj hg
            rw [hct] at ht0
            cases ht0
          · refine ⟨e, ?_, fun _ ht => ht⟩
            have hslug : ({ e2 with confirmTokens := some kv.2 } : Entry).slug
                = s2 := by
              show e2.slug = s2
              exact getLast_slug hg
            rw [getLast_setLast_ne { e2 with confirmTokens := some kv.2 }
              hslug hs]
            exact h
        · exact ⟨e, h, fun _ ht => ht⟩
    · exact ⟨e, h, fun _ ht => ht⟩

/-- Iterating `secondStep` keeps an entry resolvable and keeps its
already-present confirm tokens. -/
theorem secondPass_getLast (slugs : List String) (table : Table)
    (st : MergeState) {s : String} {e : Entry}
    (h : getLast st.ontology s = some e) :
    ∃ e2, getLast (secondPass slugs table st).ontology s = some e2 ∧
      (∀ t0, e.confirmTokens = some t0 → e2.confirmTokens = some t0) := by
  induction table generalizing st e with
  | nil => exact ⟨e, h, fun _ ht => ht⟩
  | cons kv rest ih =>
    obtain ⟨e1, he1, hk1⟩ := secondStep_getLast slugs st kv h
    obtain ⟨e2, he2, hk2⟩ := ih _ he1
    exact ⟨e2, he2, fun t0 ht0 => hk2 t0 (hk1 t0 ht0)⟩

/-- The trailing loop settles every applicable synonym-table key: if the
index maps a table key to a nonempty existing slug whose entry is
resolvable, the resolved entry carries confirm tokens after the loop. -/
theorem secondPass_attach (slugs : List String) (table : Table)
    (k : String) (toks : List (List String)) (s : String)
    (hs : s ≠ "") (hsl : s ∈ slugs) :
    ∀ (st : MergeState) (e : Entry), (k, toks) ∈ table →
      idxGet st.idx k = some s → getLast st.ontology s = some e →
      ∃ e2, getLast (secondPass slugs table st).ontology s = some e2 ∧
        e2.confirmTokens ≠ none := by
  induction table with
  | nil =>
    intro st e hmem _ _
    cases hmem
  | cons kv rest ih =>
    intro st e hmem hidx hlast
    rw [secondPass, List.foldl_cons]
    rcases List.mem_cons.mp hmem with heq | hmem2
    · obtain rfl : kv = (k, toks) := heq.symm
      have hstep : ∃ e1,
          getLast (secondStep slugs st (k, toks)).ontology s = some e1 ∧
            e1.confirmTokens ≠ none := by
        rw [secondStep]
        simp only [hidx]
        rw [if_pos ⟨hs, hsl⟩]
        simp only [hlast]
        cases hct : e.confirmTokens with
        | none =>
          simp only [hct]
          have hslug : ({ e with confirmTokens := some toks } : Entry).slug
              = s := by
            show e.slug = s
            exact getLast_slug hlast
          exact ⟨{ e with confirmTokens := some toks },
            getLast_setLast_self _ hlast hslug, by simp⟩
        | some t0 =>
          simp only [hct]
          exact ⟨e, hlast, by simp [hct]⟩
      obtain ⟨e1, he1, hct1⟩ := hstep
      obtain ⟨e2, he2, hk2⟩ :=
        secondPass_getLast slugs rest (secondStep slugs st (k, toks)) he1
      refine ⟨e2, he2, ?_⟩
      cases h1 : e1.confirmTokens with
      | none => exact absurd h1 hct1
      | some t1 =>
        rw [hk2 t1 h1]
        simp
    · have hidx1 : idxGet (secondStep slugs st kv).idx k = some s := by
        rw [secondStep_idx]
        exact hidx
      obtain ⟨e1, he1, _⟩ := secondStep_getLast slugs st kv hlast
      exact ih (secondStep slugs st kv) e1 hmem2 hidx1 he1

/-- C9 (amended): after the per-cluster pass, for every synonym-table key,
if the surface-form index maps the key to a nonempty slug naming a
resolvable entry, then (i) a step of the trailing loop processing that key
while the entry still lacks `confirmTokens` attaches exactly the key's token
groups, and (ii) after the full trailing loop the entry carries confirm
tokens — so tokens attach via any indexed surface form, including to entries
no cluster matched in this run. -/
theorem second_pass_attaches (slugs : List String) (st : MergeState)
    (table : Table) (k : String) (toks : List (List String)) (s : String)
    (e : Entry) (hmem : (k, toks) ∈ table)
    (hidx : idxGet st.idx k = some s) (hs : s ≠ "") (hsl : s ∈ slugs)
    (hlast : getLast st.ontology s = some e) :
    (e.confirmTokens = none →
      getLast (secondStep slugs st (k, toks)).ontology s =
        some { e with confirmTokens := some toks }) ∧
    (∃ e2, getLast (secondPass slugs table st).ontology s = some e2 ∧
      e2.confirmTokens ≠ none) := by
  constructor
  · intro hct
    rw [secondStep]
    simp only [hidx]
    rw [if_pos ⟨hs, hsl⟩]
    simp only [hlast, hct]
    have hslug : ({ e with confirmTokens := some toks } : Entry).slug = s := by
      show e.slug = s
      exact getLast_slug hlast
    exact getLast_setLast_self _ hlast hslug
  · exact secondPass_attach slugs table k toks s hs hsl st e hmem hidx hlast

/-- C9 witness: in a run with no clusters at all, the entry `e1` (which no
cluster matched) receives the token groups of table key `"x"` through its
surface form. -/
theorem second_pass_attaches_witness :
    idxGet (buildIndex [⟨"e1", ["x"], none, none, []⟩]) "x" = some "e1" ∧
    ("e1" : String) ≠ "" ∧ "e1" ∈ ["e1"] ∧
    getLast [⟨"e1", ["x"], none, none, []⟩] "e1" =
      some ⟨"e1", ["x"], none, none, []⟩ ∧
    (∃ e2, getLast (secondPass ["e1"] [("x", [["t"]])]
        ⟨[⟨"e1", ["x"], none, none, []⟩],
          buildIndex [⟨"e1", ["x"], none, none, []⟩], {}, []⟩).ontology
        "e1" = some e2 ∧ e2.confirmTokens ≠ none) := by
  have h := second_pass_attaches ["e1"]
    ⟨[⟨"e1", ["x"], none, none, []⟩],
      buildIndex [⟨"e1", ["x"], none, none, []⟩], {}, []⟩
    [("x", [["t"]])] "x" [["t"]] "e1" ⟨"e1", ["x"], none, none, []⟩
    (by decide) (by decide) (by decide) (by decide) (by decide)
  exact ⟨by decide, by decide, by decide, by decide, h.2⟩

/-- C9 counterexample: with an existing entry whose slug is the empty
string, the surface-form index maps the table key `"x"` to that entry and
the entry still lacks `confirmTokens`, yet the Merger attaches nothing:
Python's `if slug and slug in slug_to_entry:` treats the empty slug as
false. -/
theorem second_pass_empty_slug_cex :
    idxGet (buildIndex [⟨"", ["x"], none, none, []⟩]) "x" = some "" ∧
    getLast [⟨"", ["x"], none, none, []⟩] "" =
      some ⟨"", ["x"], none, none, []⟩ ∧
    (merge [] [⟨"", ["x"], none, none, []⟩] [("x", [["t"]])]).ontology =
      [⟨"", ["x"], none, none, []⟩] ∧
    (merge [] [⟨"", ["x"], none, none, []⟩]
      [("x", [["t"]])]).stats.confirm_tokens_added = 0 := by
  decide

/-- C5: the Merger's match search is exactly the spec's ordered strategy
list — lowercased canonical in the surface-form index, then the canonical's
slug among existing slugs, then the aliases in cluster order, first hit
wins — and in the spec's routing example the cluster with canonical
`"minced garlic"` and alias `"garlic, minced"` is routed to the unmatched
output (with its name, totalUsage and alias names) while the entry with slug
`garlic` and surface form `"garlic cloves"` is left untouched: shared base
tokens alone never produce a match. -/
theorem match_priority_and_routing :
    (∀ (idx : Index) (slugs : List String) (c : MCluster),
      findMatch idx slugs c = specMatch idx slugs c) ∧
    (merge [⟨"minced garlic", [("garlic, minced", 3)], 63⟩]
        [⟨"garlic", ["garlic cloves"], none, none, []⟩] []).unmatched =
      [⟨"minced garlic", 63, ["garlic, minced"]⟩] ∧
    (merge [⟨"minced garlic", [("garlic, minced", 3)], 63⟩]
        [⟨"garlic", ["garlic cloves"], none, none, []⟩] []).ontology =
      [⟨"garlic", ["garlic cloves"], none, none, []⟩] := by
  refine ⟨fun idx slugs c => ?_, by decide, by decide⟩
  rw [findMatch, specMatch, matchStrategies]
  cases h : idxGet idx (pyLower c.canonical) with
  | some s => simp [List.findSome?_cons, h]
  | none =>
    by_cases hs : slugify c.canonical ∈ slugs
    · simp [List.findSome?_cons, h, hs]
    · simp only [List.findSome?_cons, h, hs, if_neg hs]
      cases List.findSome? (fun a => idxGet idx (pyLower a.1)) c.aliases <;>
        rfl

/-- C10: a cluster for which all three match attempts fail changes no
ontology entry and neither lookup index; the only effects are the appended
unmatched record (canonical, totalUsage as count, first 5 alias names) and
the incremented `clusters_unmatched` counter. -/
theorem unmatched_cluster_frame (table : Table) (slugs : List String)
    (st : MergeState) (c : MCluster)
    (h : findMatch st.idx slugs c = none) :
    mergeStep table slugs st c =
      { ontology := st.ontology
        idx := st.idx
        stats := { st.stats with
          clusters_unmatched := st.stats.clusters_unmatched + 1 }
        unmatched := st.unmatched ++
          [⟨c.canonical, c.totalUsage, (c.aliases.take 5).map Prod.fst⟩] } := by
  rw [mergeStep]
  simp only [h]
  rfl

/-- C10 witness: the routing example cluster fails all three attempts and
produces exactly the frame-preserving unmatched transition. -/
theorem unmatched_cluster_frame_witness :
    findMatch (buildIndex [⟨"garlic", ["garlic cloves"], none, none, []⟩])
        ["garlic"] ⟨"minced garlic", [("garlic, minced", 3)], 63⟩ = none ∧
    mergeStep [] ["garlic"]
        ⟨[⟨"garlic", ["garlic cloves"], none, none, []⟩],
          buildIndex [⟨"garlic", ["garlic cloves"], none, none, []⟩], {}, []⟩
        ⟨"minced garlic", [("garlic, minced", 3)], 63⟩ =
      { ontology := [⟨"garlic", ["garlic cloves"], none, none, []⟩]
        idx := buildIndex [⟨"garlic", ["garlic cloves"], none, none, []⟩]
        stats := { clusters_unmatched := 1 }
        unmatched := [⟨"minced garlic", 63, ["garlic, minced"]⟩] } := by
  refine ⟨by decide, ?_⟩
  exact (unmatched_cluster_frame [] ["garlic"]
    ⟨[⟨"garlic", ["garlic cloves"], none, none, []⟩],
      buildIndex [⟨"garlic", ["garlic cloves"], none, none, []⟩], {}, []⟩
    ⟨"minced garlic", [("garlic, minced", 3)], 63⟩ (by decide)).trans
    (by decide)

/-- C1 counterexample: merging these two clusters into this two-entry
ontology and then re-running the merge with the first run's output as the
new existing ontology adds one more surface form (`"weird"`, appended to the
`zother` entry after the rebuilt index re-routes the canonical `"Garlic"`)
and bumps one recipe count — the second run is not a no-op. -/
theorem merge_not_idempotent_cex :
    (merge [⟨"Garlic", [("weird", 1)], 10⟩, ⟨"other", [("garlic", 1)], 5⟩]
        ((merge [⟨"Garlic", [("weird", 1)], 10⟩, ⟨"other", [("garlic", 1)], 5⟩]
            [⟨"garlic", [], none, none, []⟩, ⟨"zother", ["other"], none, none, []⟩]
            []).ontology)
        []).stats.surface_forms_added = 1 ∧
    (merge [⟨"Garlic", [("weird", 1)], 10⟩, ⟨"other", [("garlic", 1)], 5⟩]
        ((merge [⟨"Garlic", [("weird", 1)], 10⟩, ⟨"other", [("garlic", 1)], 5⟩]
            [⟨"garlic", [], none, none, []⟩, ⟨"zother", ["other"], none, none, []⟩]
            []).ontology)
        []).stats.recipe_counts_added = 1 := by
  decide

end Merge

namespace Merge

/-! ### Slugify claims (C2) -/

theorem noDoubleHyphen_tail {c : Char} {cs : List Char}
    (h : noDoubleHyphen (c :: cs) = true) : noDoubleHyphen cs = true := by
  cases cs with
  | nil => rfl
  | cons d t =>
    simp only [noDoubleHyphen, Bool.and_eq_true] at h
    exact h.2

theorem noDoubleHyphen_head {d : Char} {t : List Char}
    (h : noDoubleHyphen ('-' :: d :: t) = true) : d ≠ '-' := by
  intro hd
  subst hd
  simp [noDoubleHyphen] at h

theorem subHyphenRuns_id : ∀ (l : List Char) (b : Bool),
    noDoubleHyphen l = true → (b = true → l.head? ≠ some '-') →
    subHyphenRuns l b = l := by
  intro l
  induction l with
  | nil =>
    intro b _ _
    rfl
  | cons c cs ih =>
    intro b hnd hb
    by_cases hc : c = '-'
    · subst hc
      have hbf : b = false := by
        cases b
        · rfl
        · exact absurd rfl (hb rfl)
      subst hbf
      rw [subHyphenRuns, if_pos rfl, if_neg Bool.false_ne_true]
      have hcs : subHyphenRuns cs true = cs := by
        refine ih true (noDoubleHyphen_tail hnd) (fun _ => ?_)
        cases cs with
        | nil => simp
        | cons d t => simpa using noDoubleHyphen_head hnd
      rw [hcs]
    · rw [subHyphenRuns, if_neg hc]
      have hcs : subHyphenRuns cs false = cs :=
        ih false (noDoubleHyphen_tail hnd) (fun hf => (Bool.false_ne_true hf).elim)
      rw [hcs]

/-- C2 (amended): on every input whose intermediate slug (lowercased,
stripped, bad characters deleted, whitespace runs replaced by hyphens)
contains no two adjacent hyphens, the Expander's `slugify` agrees with the
Merger's `slugify` (which is the §4.3 rule verbatim).  The two functions
differ exactly by the Merger's extra `re.sub(r"-+", "-", s)` step. -/
theorem slugify_agree_of_noDoubleHyphen (s : String)
    (h : noDoubleHyphen (slugCore s) = true) :
    Expand.slugify s = slugify s := by
  rw [Expand.slugify, slugify,
    subHyphenRuns_id (slugCore s) false h
      (fun hf => (Bool.false_ne_true hf).elim)]

/-- C2 witness: the spec's own slugify example. -/
theorem slugify_agree_witness :
    noDoubleHyphen (slugCore "Ground Ginger!!") = true ∧
    Expand.slugify "Ground Ginger!!" = slugify "Ground Ginger!!" ∧
    slugify "Ground Ginger!!" = "ground-ginger" :=
  ⟨by decide, slugify_agree_of_noDoubleHyphen "Ground Ginger!!" (by decide),
    by decide⟩

/-- C2 counterexample: the Expander's `slugify` has no
`re.sub(r"-+", "-", s)` step, so the two functions disagree on `"a--b"`. -/
theorem slugify_disagree_cex :
    Expand.slugify "a--b" = "a--b" ∧ slugify "a--b" = "a-b" ∧
    Expand.slugify "a--b" ≠ slugify "a--b" := by
  decide

end Merge

namespace Expand

/-! ### Expander claims (C3) -/

/-- C3 (amended): if the input ontology has pairwise-distinct slugs, every
entry created by one expansion run has a slug distinct from every
pre-existing slug (the dedup check works against the pre-expansion
snapshot), and the pre-existing slugs stay pairwise distinct; distinctness
can fail only between two entries created within the same run. -/
theorem expand_fresh_slugs (ont : List XEntry) (clusters : List UCluster)
    (fdc : List (String × FdcCand)) (minCount : Nat)
    (hd : ont.Pairwise fun a b => a.slug ≠ b.slug) :
    (∀ n ∈ newEntries ont clusters fdc minCount,
      n.slug ∉ ont.map XEntry.slug) ∧
    (ont.map XEntry.slug).Pairwise (fun a b => a ≠ b) := by
  constructor
  · intro n hn
    rw [newEntries] at hn
    obtain ⟨c, _, hstep⟩ := List.mem_filterMap.mp hn
    rw [expandStep] at hstep
    by_cases h1 : slugify c.canonical ∈ ont.map XEntry.slug
    · rw [if_pos h1] at hstep
      cases hstep
    · rw [if_neg h1] at hstep
      by_cases h2 : normalizeSurface c.canonical ∈ allLowSurfaces ont
      · rw [if_pos h2] at hstep
        cases hstep
      · rw [if_neg h2] at hstep
        obtain rfl := Option.some.inj hstep
        exact h1
  · exact List.Pairwise.map XEntry.slug (fun a b hr => hr) hd

/-- C3 witness: expanding a fresh cluster against a distinct-slug ontology
keeps the new slug away from all existing slugs. -/
theorem expand_fresh_slugs_witness :
    (([⟨"garlic", none, ["garlic"], none, none⟩] : List XEntry).Pairwise
      fun a b => a.slug ≠ b.slug) ∧
    (∀ n ∈ newEntries [⟨"garlic", none, ["garlic"], none, none⟩]
        [⟨"soy sauce", 70, []⟩] [] 50,
      n.slug ∉ ([⟨"garlic", none, ["garlic"], none, none⟩] : List XEntry).map
        XEntry.slug) ∧
    (([⟨"garlic", none, ["garlic"], none, none⟩] : List XEntry).map
      XEntry.slug).Pairwise (fun a b => a ≠ b) := by
  have h := expand_fresh_slugs [⟨"garlic", none, ["garlic"], none, none⟩]
    [⟨"soy sauce", 70, []⟩] [] 50 (by decide)
  exact ⟨by decide, h.1, h.2⟩

/-- C3 counterexample: two unmatched clusters whose canonicals slugify to
the same slug both pass the snapshot checks, so one expansion run creates
two entries with slug `"foo"` — the produced ontology violates slug
uniqueness even though the input ontology (empty) satisfied it. -/
theorem expand_duplicate_slug_cex :
    (([] : List XEntry).Pairwise fun a b => a.slug ≠ b.slug) ∧
    ¬ ((expand [] [⟨"Foo", 50, []⟩, ⟨"foo", 50, []⟩] [] 50).Pairwise
      fun a b => a.slug ≠ b.slug) := by
  decide

end Expand

namespace Merge

/-! ### Entry evolution during a merge run -/

theorem entryEvolve_refl (e : Entry) : EntryEvolve e e :=
  ⟨rfl, fun _ hf => hf, fun v hv => ⟨v, hv, Nat.le_refl v⟩, fun _ ht => ht⟩

theorem entryEvolve_trans {e1 e2 e3 : Entry} (h1 : EntryEvolve e1 e2)
    (h2 : EntryEvolve e2 e3) : EntryEvolve e1 e3 := by
  obtain ⟨hs1, hf1, hr1, hc1⟩ := h1
  obtain ⟨hs2, hf2, hr2, hc2⟩ := h2
  refine ⟨hs2.trans hs1, fun f hf => hf2 f (hf1 f hf), ?_, fun t ht => hc2 t (hc1 t ht)⟩
  intro v hv
  obtain ⟨w, hw, hvw⟩ := hr1 v hv
  obtain ⟨w2, hw2, hww2⟩ := hr2 w hw
  exact ⟨w2, hw2, Nat.le_trans hvw hww2⟩

theorem forall₂EE_refl (l : List Entry) : List.Forall₂ EntryEvolve l l := by
  induction l with
  | nil => exact List.Forall₂.nil
  | cons x xs ih => exact List.Forall₂.cons (entryEvolve_refl x) ih

theorem forall₂EE_trans {l1 l2 l3 : List Entry}
    (h1 : List.Forall₂ EntryEvolve l1 l2) (h2 : List.Forall₂ EntryEvolve l2 l3) :
    List.Forall₂ EntryEvolve l1 l3 := by
  induction h1 generalizing l3 with
  | nil =>
    cases h2
    exact List.Forall₂.nil
  | cons hab htail ih =>
    cases h2 with
    | cons hbc htail2 =>
      exact List.Forall₂.cons (entryEvolve_trans hab hbc) (ih htail2)

theorem forall₂EE_mem {l1 l2 : List Entry}
    (h : List.Forall₂ EntryEvolve l1 l2) {e : Entry} (he : e ∈ l1) :
    ∃ e2 ∈ l2, EntryEvolve e e2 := by
  induction h with
  | nil => cases he
  | cons hab htail ih =>
    rcases List.mem_cons.mp he with rfl | he2
    · exact ⟨_, List.mem_cons_self _ _, hab⟩
    · obtain ⟨e2, he2m, hee⟩ := ih he2
      exact ⟨e2, List.mem_cons_of_mem _ he2m, hee⟩

theorem forall₂EE_getLast_none {l1 l2 : List Entry}
    (h : List.Forall₂ EntryEvolve l1 l2) {s : String}
    (hg : getLast l1 s = none) : getLast l2 s = none := by
  induction h with
  | nil => rfl
  | cons hab htail ih =>
    rename_i a b t1 t2
    rw [getLast] at hg
    rw [getLast]
    cases hx : getLast t1 s with
    | some r =>
      rw [hx] at hg
      cases hg
    | none =>
      rw [hx] at hg
      rw [ih hx]
      by_cases hs : a.slug = s
      · rw [if_pos hs] at hg
        cases hg
      · rw [if_neg hs] at hg
        rw [if_neg (by rw [hab.1]; exact hs)]

theorem forall₂EE_getLast {l1 l2 : List Entry}
    (h : List.Forall₂ EntryEvolve l1 l2) {s : String} {e : Entry}
    (hg : getLast l1 s = some e) :
    ∃ e2, getLast l2 s = some e2 ∧ EntryEvolve e e2 := by
  induction h with
  | nil => cases hg
  | cons hab htail ih =>
    rename_i a b t1 t2
    rw [getLast] at hg
    rw [getLast]
    cases hx : getLast t1 s with
    | some r =>
      rw [hx] at hg
      obtain ⟨e2, he2, hee⟩ := ih (hx.trans hg)
      rw [he2]
      exact ⟨e2, rfl, hee⟩
    | none =>
      rw [hx] at hg
      rw [forall₂EE_getLast_none htail hx]
      by_cases hs : a.slug = s
      · rw [if_pos hs] at hg
        obtain rfl := Option.some.inj hg
        rw [if_pos (by rw [hab.1]; exact hs)]
        exact ⟨b, rfl, hab⟩
      · rw [if_neg hs] at hg
        cases hg

theorem forall₂EE_map_slug {l1 l2 : List Entry}
    (h : List.Forall₂ EntryEvolve l1 l2) :
    l2.map Entry.slug = l1.map Entry.slug := by
  induction h with
  | nil => rfl
  | cons hab _ ih =>
    simp only [List.map_cons, ih, hab.1]

/-- Transporting `Settled` along an evolution of the ontology. -/
theorem settled_evolve {table : Table} {l1 l2 : List Entry} {c : MCluster}
    (h : List.Forall₂ EntryEvolve l1 l2) (hs : Settled table l1 c) :
    Settled table l2 c := by
  obtain ⟨s, e, hg, hforms, ⟨v, hv, hle⟩, hct⟩ := hs
  obtain ⟨e2, hg2, hee⟩ := forall₂EE_getLast h hg
  refine ⟨s, e2, hg2, ?_, ?_, ?_⟩
  · intro f hf
    obtain ⟨g, hgmem, hgl⟩ := List.mem_map.mp (hforms f hf)
    exact List.mem_map.mpr ⟨g, hee.2.1 g hgmem, hgl⟩
  · obtain ⟨w, hw, hvw⟩ := hee.2.2.1 v hv
    exact ⟨w, hw, Nat.le_trans hle hvw⟩
  · intro hlk
    have := hct hlk
    cases h0 : e.confirmTokens with
    | none => exact absurd h0 this
    | some t0 =>
      rw [hee.2.2.2 t0 h0]
      simp

/-! ### setLast and getLast interaction -/

theorem setLast_self_eq {l : List Entry} {s : String} {e : Entry}
    (h : getLast l s = some e) : setLast l s e = l := by
  induction l with
  | nil => rfl
  | cons x xs ih =>
    rw [getLast] at h
    rw [setLast]
    cases hx : getLast xs s with
    | some r =>
      rw [hx] at h
      rw [ih (hx.trans h)]
    | none =>
      rw [hx] at h
      by_cases hs : x.slug = s
      · rw [if_pos hs] at h
        rw [if_pos hs, Option.some.inj h]
      · rw [if_neg hs] at h
        cases h

theorem forall₂EE_setLast {l : List Entry} {s : String} {e v : Entry}
    (h : getLast l s = some e) (hee : EntryEvolve e v) :
    List.Forall₂ EntryEvolve l (setLast l s v) := by
  induction l with
  | nil => cases h
  | cons x xs ih =>
    rw [getLast] at h
    rw [setLast]
    cases hx : getLast xs s with
    | some r =>
      rw [hx] at h
      exact List.Forall₂.cons (entryEvolve_refl x) (ih (hx.trans h))
    | none =>
      rw [hx] at h
      by_cases hs : x.slug = s
      · rw [if_pos hs] at h
        obtain rfl := Option.some.inj h
        rw [if_pos hs]
        exact List.Forall₂.cons hee (forall₂EE_refl xs)
      · rw [if_neg hs] at h
        cases h

/-! ### addForms lemmas -/

theorem lowForms_mono {e e2 : Entry}
    (h : ∀ x ∈ e.surfaceForms, x ∈ e2.surfaceForms) :
    ∀ y ∈ lowForms e, y ∈ lowForms e2 := by
  intro y hy
  obtain ⟨g, hg, rfl⟩ := List.mem_map.mp hy
  exact List.mem_map.mpr ⟨g, h g hg, rfl⟩

theorem addForms_go_evolve : ∀ (fs : List String) (e : Entry) (n : Nat),
    EntryEvolve e (fs.foldl addFormsStep (e, n)).1 := by
  intro fs
  induction fs with
  | nil => exact fun e n => entryEvolve_refl e
  | cons f fs ih =>
    intro e n
    rw [List.foldl_cons, addFormsStep]
    by_cases hin : pyLower f ∈ e.surfaceForms.map pyLower
    · rw [if_pos hin]
      exact ih e n
    · rw [if_neg hin]
      refine entryEvolve_trans ?_ (ih _ _)
      exact ⟨rfl, fun x hx => List.mem_append_left _ hx,
        fun v hv => ⟨v, hv, Nat.le_refl v⟩, fun t ht => ht⟩

theorem addForms_go_bound : ∀ (fs : List String) (e : Entry) (n : Nat),
    ∀ x ∈ (fs.foldl addFormsStep (e, n)).1.surfaceForms,
      x ∈ e.surfaceForms ∨ x ∈ fs := by
  intro fs
  induction fs with
  | nil =>
    intro e n x hx
    exact Or.inl hx
  | cons f fs ih =>
    intro e n x hx
    rw [List.foldl_cons, addFormsStep] at hx
    by_cases hin : pyLower f ∈ e.surfaceForms.map pyLower
    · rw [if_pos hin] at hx
      rcases ih e n x hx with h | h
      · exact Or.inl h
      · exact Or.inr (List.mem_cons_of_mem _ h)
    · rw [if_neg hin] at hx
      rcases ih _ _ x hx with h | h
      · rcases List.mem_append.mp h with h2 | h2
        · exact Or.inl h2
        · exact Or.inr (List.mem_cons.mpr (Or.inl (List.mem_singleton.mp h2)))
      · exact Or.inr (List.mem_cons_of_mem _ h)

theorem addForms_go_mem : ∀ (fs : List String) (e : Entry) (n : Nat),
    ∀ f ∈ fs, pyLower f ∈ lowForms (fs.foldl addFormsStep (e, n)).1 := by
  intro fs
  induction fs with
  | nil =>
    intro e n f hf
    cases hf
  | cons g fs ih =>
    intro e n f hf
    rw [List.foldl_cons, addFormsStep]
    rcases List.mem_cons.mp hf with rfl | hf2
    · by_cases hin : pyLower f ∈ e.surfaceForms.map pyLower
      · rw [if_pos hin]
        exact lowForms_mono (addForms_go_evolve fs e n).2.1 _ hin
      · rw [if_neg hin]
        refine lowForms_mono (addForms_go_evolve fs _ _).2.1 _ ?_
        exact List.mem_map.mpr ⟨f, List.mem_append_right _ (List.mem_singleton.mpr rfl), rfl⟩
    · by_cases hin : pyLower g ∈ e.surfaceForms.map pyLower
      · rw [if_pos hin]
        exact ih e n f hf2
      · rw [if_neg hin]
        exact ih _ _ f hf2

theorem addForms_go_noop : ∀ (fs : List String) (e : Entry) (n : Nat),
    (∀ f ∈ fs, pyLower f ∈ lowForms e) →
    fs.foldl addFormsStep (e, n) = (e, n) := by
  intro fs
  induction fs with
  | nil =>
    intro e n _
    rfl
  | cons f fs ih =>
    intro e n h
    have hp : pyLower f ∈ e.surfaceForms.map pyLower :=
      h f (List.mem_cons_self _ _)
    rw [List.foldl_cons, addFormsStep, if_pos hp,
      ih e n (fun g hg => h g (List.mem_cons_of_mem _ hg))]

theorem addForms_evolve (e : Entry) (fs : List String) :
    EntryEvolve e (addForms e fs).1 :=
  addForms_go_evolve fs e 0

theorem addForms_bound (e : Entry) (fs : List String) :
    ∀ x ∈ (addForms e fs).1.surfaceForms, x ∈ e.surfaceForms ∨ x ∈ fs :=
  addForms_go_bound fs e 0

theorem addForms_mem (e : Entry) (fs : List String) :
    ∀ f ∈ fs, pyLower f ∈ lowForms (addForms e fs).1 :=
  addForms_go_mem fs e 0

theorem addForms_noop (e : Entry) (fs : List String)
    (h : ∀ f ∈ fs, pyLower f ∈ lowForms e) : addForms e fs = (e, 0) :=
  addForms_go_noop fs e 0 h

/-! ### Index lemmas -/

theorem idxGet_idxSet (i : Index) (k0 v k : String) :
    idxGet (idxSet i k0 v) k = if k0 = k then some v else idxGet i k := rfl

theorem idxGet_insertForms (slg : String) : ∀ (fs : List String) (i : Index)
    (k : String),
    idxGet (fs.foldl (fun i2 f => idxSet i2 (pyLower f) slg) i) k =
      if k ∈ fs.map pyLower then some slg else idxGet i k := by
  intro fs
  induction fs with
  | nil =>
    intro i k
    rw [List.foldl_nil, List.map_nil, if_neg (List.not_mem_nil k)]
  | cons f fs ih =>
    intro i k
    rw [List.foldl_cons, ih, List.map_cons]
    by_cases hmem : k ∈ fs.map pyLower
    · rw [if_pos hmem, if_pos (List.mem_cons_of_mem _ hmem)]
    · rw [if_neg hmem, idxGet_idxSet]
      by_cases hk : pyLower f = k
      · rw [if_pos hk, if_pos (List.mem_cons.mpr (Or.inl hk.symm))]
      · rw [if_neg hk,
          if_neg (fun hc => (List.mem_cons.mp hc).elim (fun h2 => hk h2.symm) hmem)]

theorem buildIndex_append (l : List Entry) (e : Entry) (k : String) :
    idxGet (buildIndex (l ++ [e])) k =
      if k ∈ lowForms e then some e.slug else idxGet (buildIndex l) k := by
  rw [buildIndex, buildIndex, List.foldl_append, List.foldl_cons,
    List.foldl_nil]
  exact idxGet_insertForms e.slug e.surfaceForms _ k

theorem mem_allLowForms {ont : List Entry} {k : String} :
    k ∈ allLowForms ont ↔ ∃ e ∈ ont, k ∈ lowForms e := by
  rw [allLowForms]
  exact List.mem_flatMap

theorem idxGet_buildIndex_some {ont : List Entry} {k s : String}
    (h : idxGet (buildIndex ont) k = some s) :
    ∃ e ∈ ont, e.slug = s ∧ k ∈ lowForms e := by
  induction ont using List.reverseRecOn with
  | nil => cases h
  | append_singleton l e ih =>
    rw [buildIndex_append] at h
    by_cases hk : k ∈ lowForms e
    · rw [if_pos hk] at h
      exact ⟨e, List.mem_append_right _ (List.mem_singleton.mpr rfl),
        Option.some.inj h ▸ rfl, hk⟩
    · rw [if_neg hk] at h
      obtain ⟨e2, he2, hs2, hk2⟩ := ih h
      exact ⟨e2, List.mem_append_left _ he2, hs2, hk2⟩

theorem idxGet_buildIndex_none_iff (ont : List Entry) (k : String) :
    idxGet (buildIndex ont) k = none ↔ k ∉ allLowForms ont := by
  induction ont using List.reverseRecOn with
  | nil => simp [buildIndex, allLowForms, idxGet]
  | append_singleton l e ih =>
    rw [buildIndex_append]
    have hmem : k ∈ allLowForms (l ++ [e]) ↔
        k ∈ allLowForms l ∨ k ∈ lowForms e := by
      rw [mem_allLowForms, mem_allLowForms]
      constructor
      · rintro ⟨e2, he2, hk2⟩
        rcases List.mem_append.mp he2 with h2 | h2
        · exact Or.inl ⟨e2, h2, hk2⟩
        · obtain rfl := List.mem_singleton.mp h2
          exact Or.inr hk2
      · rintro (⟨e2, he2, hk2⟩ | hk2)
        · exact ⟨e2, List.mem_append_left _ he2, hk2⟩
        · exact ⟨e, List.mem_append_right _ (List.mem_singleton.mpr rfl), hk2⟩
    by_cases hk : k ∈ lowForms e
    · rw [if_pos hk]
      simp [hmem, hk]
    · rw [if_neg hk]
      rw [ih, hmem]
      constructor
      · intro h1
        rintro (h2 | h2)
        · exact h1 h2
        · exact hk h2
      · intro h1 h2
        exact h1 (Or.inl h2)

theorem idxGet_buildIndex_owner {ont : List Entry} (hd : FormsDisjoint ont)
    {k : String} {e : Entry} (he : e ∈ ont) (hk : k ∈ lowForms e) :
    idxGet (buildIndex ont) k = some e.slug := by
  induction ont using List.reverseRecOn with
  | nil => cases he
  | append_singleton l x ih =>
    rw [FormsDisjoint, List.pairwise_append] at hd
    obtain ⟨hdl, _, hcross⟩ := hd
    rw [buildIndex_append]
    by_cases hkx : k ∈ lowForms x
    · rw [if_pos hkx]
      rcases List.mem_append.mp he with h2 | h2
      · exact absurd hkx (hcross e h2 x (List.mem_singleton.mpr rfl) k hk)
      · obtain rfl := List.mem_singleton.mp h2
        rfl
    · rw [if_neg hkx]
      rcases List.mem_append.mp he with h2 | h2
      · exact ih hdl h2
      · obtain rfl := List.mem_singleton.mp h2
        exact absurd hk hkx

/-! ### Stability of the slug sort -/

theorem filter_orderedInsert_slug (a : Entry) (s : String) :
    ∀ l : List Entry,
    (List.orderedInsert (fun x y : Entry => x.slug.data ≤ y.slug.data) a
        l).filter (fun e => decide (e.slug = s)) =
      if a.slug = s then
        a :: l.filter (fun e => decide (e.slug = s))
      else l.filter (fun e => decide (e.slug = s)) := by
  intro l
  induction l with
  | nil =>
    rw [List.orderedInsert, List.filter_nil]
    by_cases ha : a.slug = s
    · rw [if_pos ha]
      simp [ha]
    · rw [if_neg ha]
      simp [ha]
  | cons b t ih =>
    rw [List.orderedInsert]
    by_cases hr : a.slug.data ≤ b.slug.data
    · rw [if_pos hr]
      by_cases ha : a.slug = s
      · rw [if_pos ha]
        simp [List.filter_cons, ha]
      · rw [if_neg ha]
        simp [List.filter_cons, ha]
    · rw [if_neg hr, List.filter_cons, List.filter_cons, ih]
      by_cases hb : b.slug = s
      · have hbd : decide (b.slug = s) = true := by simpa using hb
        by_cases ha : a.slug = s
        · exfalso
          apply hr
          rw [show a.slug = b.slug from ha.trans hb.symm]
        · rw [if_pos hbd, if_pos hbd, if_neg ha, if_neg ha]
      · have hbd : ¬ decide (b.slug = s) = true := by simpa using hb
        by_cases ha : a.slug = s
        · rw [if_neg hbd, if_neg hbd, if_pos ha]
        · rw [if_neg hbd, if_neg hbd, if_neg ha]

theorem filter_sortBySlug (l : List Entry) (s : String) :
    (sortBySlug l).filter (fun e => decide (e.slug = s)) =
      l.filter (fun e => decide (e.slug = s)) := by
  induction l with
  | nil => rfl
  | cons x t ih =>
    rw [sortBySlug, List.insertionSort,
      show List.insertionSort (fun a b : Entry => a.slug.data ≤ b.slug.data) t
        = sortBySlug t from rfl,
      filter_orderedInsert_slug, List.filter_cons]
    by_cases hx : x.slug = s
    · rw [if_pos hx, ih]
      simp [hx]
    · rw [if_neg hx, ih]
      simp [hx]

theorem getLast_eq_lastOf (l : List Entry) (s : String) :
    getLast l s = lastOf (l.filter fun e => decide (e.slug = s)) := by
  induction l with
  | nil => rfl
  | cons x xs ih =>
    rw [getLast, List.filter_cons]
    by_cases hx : x.slug = s
    · rw [if_pos (show decide (x.slug = s) = true by simpa using hx), lastOf,
        ← ih]
      cases getLast xs s with
      | some r => rfl
      | none =>
        rw [if_pos hx]
        rfl
    · rw [if_neg (show ¬ decide (x.slug = s) = true by simpa using hx), ← ih]
      cases getLast xs s with
      | some r => rfl
      | none => rw [if_neg hx]

theorem getLast_sortBySlug (l : List Entry) (s : String) :
    getLast (sortBySlug l) s = getLast l s := by
  rw [getLast_eq_lastOf, getLast_eq_lastOf, filter_sortBySlug]

theorem sortBySlug_perm (l : List Entry) : (sortBySlug l).Perm l :=
  List.perm_insertionSort _ l

theorem mem_allLowForms_sortBySlug (l : List Entry) (k : String) :
    k ∈ allLowForms (sortBySlug l) ↔ k ∈ allLowForms l := by
  rw [mem_allLowForms, mem_allLowForms]
  constructor
  · rintro ⟨e, he, hk⟩
    exact ⟨e, (sortBySlug_perm l).mem_iff.mp he, hk⟩
  · rintro ⟨e, he, hk⟩
    exact ⟨e, (sortBySlug_perm l).mem_iff.mpr he, hk⟩

instance : IsTotal Entry fun a b : Entry => a.slug.data ≤ b.slug.data :=
  ⟨fun a b => le_total a.slug.data b.slug.data⟩

instance : IsTrans Entry fun a b : Entry => a.slug.data ≤ b.slug.data :=
  ⟨fun _ _ _ hab hbc => le_trans hab hbc⟩

theorem sortBySlug_idem (l : List Entry) :
    sortBySlug (sortBySlug l) = sortBySlug l :=
  List.Sorted.insertionSort_eq
    (List.sorted_insertionSort (fun a b : Entry => a.slug.data ≤ b.slug.data) l)

/-! ### The matched-branch entry pipeline -/

theorem mem_setLast {l : List Entry} {s : String} {v : Entry} :
    ∀ x ∈ setLast l s v, x ∈ l ∨ x = v := by
  induction l with
  | nil =>
    intro x hx
    cases hx
  | cons e es ih =>
    intro x hx
    rw [setLast] at hx
    cases hg : getLast es s with
    | some r =>
      rw [hg] at hx
      rcases List.mem_cons.mp hx with rfl | hx2
      · exact Or.inl (List.mem_cons_self _ _)
      · rcases ih x hx2 with h2 | h2
        · exact Or.inl (List.mem_cons_of_mem _ h2)
        · exact Or.inr h2
    | none =>
      rw [hg] at hx
      by_cases hs : e.slug = s
      · rw [if_pos hs] at hx
        rcases List.mem_cons.mp hx with rfl | hx2
        · exact Or.inr rfl
        · exact Or.inl (List.mem_cons_of_mem _ hx2)
      · rw [if_neg hs] at hx
        exact Or.inl hx

theorem rcUpdate_forms (tot : Nat) (e : Entry) :
    (rcUpdate tot e).1.surfaceForms = e.surfaceForms := by
  rcases h : e.recipeCount with _ | v
  · simp only [rcUpdate, h]
  · simp only [rcUpdate, h]
    by_cases hv : v < tot
    · rw [if_pos hv]
    · rw [if_neg hv]

theorem rcUpdate_ct (tot : Nat) (e : Entry) :
    (rcUpdate tot e).1.confirmTokens = e.confirmTokens := by
  rcases h : e.recipeCount with _ | v
  · simp only [rcUpdate, h]
  · simp only [rcUpdate, h]
    by_cases hv : v < tot
    · rw [if_pos hv]
    · rw [if_neg hv]

theorem rcUpdate_slug (tot : Nat) (e : Entry) :
    (rcUpdate tot e).1.slug = e.slug := by
  rcases h : e.recipeCount with _ | v
  · simp only [rcUpdate, h]
  · simp only [rcUpdate, h]
    by_cases hv : v < tot
    · rw [if_pos hv]
    · rw [if_neg hv]

theorem rcUpdate_rc (tot : Nat) (e : Entry) :
    ∃ v, (rcUpdate tot e).1.recipeCount = some v ∧ tot ≤ v := by
  rcases h : e.recipeCount with _ | v
  · exact ⟨tot, by simp only [rcUpdate, h], Nat.le_refl tot⟩
  · by_cases hv : v < tot
    · exact ⟨tot, by simp only [rcUpdate, h, if_pos hv], Nat.le_refl tot⟩
    · exact ⟨v, by simp only [rcUpdate, h, if_neg hv], Nat.le_of_not_lt hv⟩

theorem rcUpdate_evolve (tot : Nat) (e : Entry) :
    EntryEvolve e (rcUpdate tot e).1 := by
  refine ⟨rcUpdate_slug tot e, ?_, ?_, ?_⟩
  · rw [rcUpdate_forms]
    exact fun f hf => hf
  · intro v hv
    by_cases h2 : v < tot
    · exact ⟨tot, by simp only [rcUpdate, hv, if_pos h2], Nat.le_of_lt h2⟩
    · exact ⟨v, by simp only [rcUpdate, hv, if_neg h2], Nat.le_refl v⟩
  · intro t ht
    rw [rcUpdate_ct]
    exact ht

theorem rcUpdate_noop {tot : Nat} {e : Entry} {v : Nat}
    (hv : e.recipeCount = some v) (hle : tot ≤ v) : rcUpdate tot e = (e, 0) := by
  simp only [rcUpdate, hv, if_neg (Nat.not_lt.mpr hle)]

theorem ctUpdate_forms (table : Table) (cl : String) (e : Entry) :
    (ctUpdate table cl e).1.surfaceForms = e.surfaceForms := by
  rcases hl : lookupStr table cl with _ | toks
  · simp only [ctUpdate, hl]
  · rcases hc : e.confirmTokens with _ | t0
    · simp only [ctUpdate, hl, hc]
    · simp only [ctUpdate, hl, hc]

theorem ctUpdate_rc (table : Table) (cl : String) (e : Entry) :
    (ctUpdate table cl e).1.recipeCount = e.recipeCount := by
  rcases hl : lookupStr table cl with _ | toks
  · simp only [ctUpdate, hl]
  · rcases hc : e.confirmTokens with _ | t0
    · simp only [ctUpdate, hl, hc]
    · simp only [ctUpdate, hl, hc]

theorem ctUpdate_slug (table : Table) (cl : String) (e : Entry) :
    (ctUpdate table cl e).1.slug = e.slug := by
  rcases hl : lookupStr table cl with _ | toks
  · simp only [ctUpdate, hl]
  · rcases hc : e.confirmTokens with _ | t0
    · simp only [ctUpdate, hl, hc]
    · simp only [ctUpdate, hl, hc]

theorem ctUpdate_evolve (table : Table) (cl : String) (e : Entry) :
    EntryEvolve e (ctUpdate table cl e).1 := by
  refine ⟨ctUpdate_slug table cl e, ?_, ?_, ?_⟩
  · rw [ctUpdate_forms]
    exact fun f hf => hf
  · intro v hv
    rw [ctUpdate_rc]
    exact ⟨v, hv, Nat.le_refl v⟩
  · intro t ht
    rcases hl : lookupStr table cl with _ | toks
    · simp only [ctUpdate, hl]
      exact ht
    · simp only [ctUpdate, hl, ht]

theorem ctUpdate_post (table : Table) (cl : String) (e : Entry)
    (h : (lookupStr table cl).isSome) :
    (ctUpdate table cl e).1.confirmTokens ≠ none := by
  rcases hl : lookupStr table cl with _ | toks
  · rw [hl] at h
    cases h
  · rcases hc : e.confirmTokens with _ | t0
    · simp only [ctUpdate, hl, hc]
      simp
    · simp only [ctUpdate, hl, hc]
      simp [hc]

theorem ctUpdate_noop {table : Table} {cl : String} {e : Entry}
    (h : (lookupStr table cl).isSome → e.confirmTokens ≠ none) :
    ctUpdate table cl e = (e, 0) := by
  rcases hl : lookupStr table cl with _ | toks
  · simp only [ctUpdate, hl]
  · rcases hc : e.confirmTokens with _ | t0
    · exfalso
      exact h (by rw [hl]; rfl) hc
    · simp only [ctUpdate, hl, hc]

theorem mergedEntry_evolve (table : Table) (c : MCluster) (e : Entry) :
    EntryEvolve e (mergedEntry table c e) :=
  entryEvolve_trans (addForms_evolve e (allFormsOf c))
    (entryEvolve_trans (rcUpdate_evolve c.totalUsage _)
      (ctUpdate_evolve table (pyLower c.canonical) _))

theorem mergedEntry_slug (table : Table) (c : MCluster) (e : Entry) :
    (mergedEntry table c e).slug = e.slug :=
  (mergedEntry_evolve table c e).1

theorem mergedEntry_forms (table : Table) (c : MCluster) (e : Entry) :
    (mergedEntry table c e).surfaceForms =
      (addForms e (allFormsOf c)).1.surfaceForms := by
  rw [mergedEntry, ctUpdate_forms, rcUpdate_forms]

theorem mergedEntry_forms_sub (table : Table) (c : MCluster) (e : Entry) :
    ∀ x ∈ (mergedEntry table c e).surfaceForms,
      x ∈ e.surfaceForms ∨ x ∈ allFormsOf c := by
  rw [mergedEntry_forms]
  exact addForms_bound e (allFormsOf c)

theorem mergedEntry_forms_mem (table : Table) (c : MCluster) (e : Entry) :
    ∀ f ∈ allFormsOf c, pyLower f ∈ lowForms (mergedEntry table c e) := by
  intro f hf
  have h := addForms_mem e (allFormsOf c) f hf
  rw [lowForms] at h
  rw [lowForms, mergedEntry_forms]
  exact h

theorem mergedEntry_rc (table : Table) (c : MCluster) (e : Entry) :
    ∃ v, (mergedEntry table c e).recipeCount = some v ∧ c.totalUsage ≤ v := by
  obtain ⟨v, hv, hle⟩ := rcUpdate_rc c.totalUsage (addForms e (allFormsOf c)).1
  refine ⟨v, ?_, hle⟩
  rw [mergedEntry, ctUpdate_rc]
  exact hv

theorem mergedEntry_ct (table : Table) (c : MCluster) (e : Entry)
    (h : (lookupStr table (pyLower c.canonical)).isSome) :
    (mergedEntry table c e).confirmTokens ≠ none :=
  ctUpdate_post table (pyLower c.canonical) _ h

theorem mergedEntry_noop (table : Table) (c : MCluster) (e : Entry)
    (h1 : ∀ f ∈ allFormsOf c, pyLower f ∈ lowForms e)
    (h2 : ∃ v, e.recipeCount = some v ∧ c.totalUsage ≤ v)
    (h3 : (lookupStr table (pyLower c.canonical)).isSome →
      e.confirmTokens ≠ none) :
    mergedEntry table c e = e ∧ (addForms e (allFormsOf c)).2 = 0 ∧
      (rcUpdate c.totalUsage (addForms e (allFormsOf c)).1).2 = 0 ∧
      (ctUpdate table (pyLower c.canonical)
        (rcUpdate c.totalUsage (addForms e (allFormsOf c)).1).1).2 = 0 := by
  obtain ⟨v, hv, hle⟩ := h2
  have hfa : addForms e (allFormsOf c) = (e, 0) := addForms_noop e _ h1
  have hrc : rcUpdate c.totalUsage (addForms e (allFormsOf c)).1 = (e, 0) := by
    rw [hfa]
    exact rcUpdate_noop hv hle
  have hct : ctUpdate table (pyLower c.canonical)
      (rcUpdate c.totalUsage (addForms e (allFormsOf c)).1).1 = (e, 0) := by
    rw [hrc]
    exact ctUpdate_noop h3
  refine ⟨?_, ?_, ?_, ?_⟩
  · rw [mergedEntry, hct]
  · rw [hfa]
  · rw [hrc]
  · rw [hct]

/-! ### The matched branch of the merge loop -/

theorem matchedStep_ontology (table : Table) (st : MergeState) (c : MCluster)
    (mslug : String) (e : Entry) :
    (matchedStep table st c mslug e).ontology =
      setLast st.ontology mslug (mergedEntry table c e) := rfl

theorem matchedStep_idx (table : Table) (st : MergeState) (c : MCluster)
    (mslug : String) (e : Entry) :
    (matchedStep table st c mslug e).idx =
      (allFormsOf c).foldl (fun i f => idxSet i (pyLower f) mslug) st.idx := rfl

theorem matchedStep_unmatched (table : Table) (st : MergeState)
    (c : MCluster) (mslug : String) (e : Entry) :
    (matchedStep table st c mslug e).unmatched = st.unmatched := rfl

theorem matchedStep_evolve (table : Table) (st : MergeState) (c : MCluster)
    (mslug : String) (e : Entry)
    (he : getLast st.ontology mslug = some e) :
    List.Forall₂ EntryEvolve st.ontology
      (matchedStep table st c mslug e).ontology := by
  rw [matchedStep_ontology]
  exact forall₂EE_setLast he (mergedEntry_evolve table c e)

theorem matchedStep_getLast (table : Table) (st : MergeState) (c : MCluster)
    (mslug : String) (e : Entry)
    (he : getLast st.ontology mslug = some e) :
    getLast (matchedStep table st c mslug e).ontology mslug =
      some (mergedEntry table c e) := by
  rw [matchedStep_ontology]
  exact getLast_setLast_self _ he
    (by rw [mergedEntry_slug]; exact getLast_slug he)

theorem matchedStep_settled (table : Table) (st : MergeState) (c : MCluster)
    (mslug : String) (e : Entry)
    (he : getLast st.ontology mslug = some e) :
    Settled table (matchedStep table st c mslug e).ontology c :=
  ⟨mslug, mergedEntry table c e, matchedStep_getLast table st c mslug e he,
    mergedEntry_forms_mem table c e, mergedEntry_rc table c e,
    fun h => mergedEntry_ct table c e h⟩

theorem findMatch_getLast {slugs : List String}
    {st : MergeState} {c : MCluster} {mslug : String}
    (hok : StOk slugs st) (h : findMatch st.idx slugs c = some mslug) :
    ∃ e, getLast st.ontology mslug = some e := by
  obtain ⟨hsl, hj1, _⟩ := hok
  rw [findMatch] at h
  cases hidx : idxGet st.idx (pyLower c.canonical) with
  | some s =>
    rw [hidx] at h
    obtain rfl := Option.some.inj h
    obtain ⟨e, he, hslug, _⟩ := hj1 _ _ hidx
    exact exists_getLast_of_mem_slug (List.mem_map.mpr ⟨e, he, hslug⟩)
  | none =>
    rw [hidx] at h
    by_cases hs : slugify c.canonical ∈ slugs
    · rw [if_pos hs] at h
      obtain rfl := Option.some.inj h
      rw [← hsl] at hs
      exact exists_getLast_of_mem_slug hs
    · rw [if_neg hs] at h
      obtain ⟨l1, a, l2, _, ha, _⟩ := List.findSome?_eq_some_iff.mp h
      obtain ⟨e, he, hslug, _⟩ := hj1 _ _ ha
      exact exists_getLast_of_mem_slug (List.mem_map.mpr ⟨e, he, hslug⟩)

theorem matchedStep_StOk (table : Table) (slugs : List String)
    (st : MergeState) (c : MCluster) (mslug : String) (e : Entry)
    (hok : StOk slugs st) (he : getLast st.ontology mslug = some e) :
    StOk slugs (matchedStep table st c mslug e) := by
  obtain ⟨hsl, hj1, hj2⟩ := hok
  refine ⟨?_, ?_, ?_⟩
  · rw [forall₂EE_map_slug (matchedStep_evolve table st c mslug e he)]
    exact hsl
  · intro k s hbind
    rw [matchedStep_idx, idxGet_insertForms] at hbind
    by_cases hmem : k ∈ (allFormsOf c).map pyLower
    · rw [if_pos hmem] at hbind
      obtain rfl := Option.some.inj hbind
      refine ⟨mergedEntry table c e,
        getLast_mem (matchedStep_getLast table st c mslug e he), ?_, ?_⟩
      · rw [mergedEntry_slug]
        exact getLast_slug he
      · obtain ⟨f, hf, rfl⟩ := List.mem_map.mp hmem
        exact mergedEntry_forms_mem table c e f hf
    · rw [if_neg hmem] at hbind
      obtain ⟨e1, he1, hs1, hk1⟩ := hj1 _ _ hbind
      obtain ⟨e2, he2, hee⟩ :=
        forall₂EE_mem (matchedStep_evolve table st c mslug e he) he1
      exact ⟨e2, he2, hee.1.trans hs1, lowForms_mono hee.2.1 _ hk1⟩
  · intro k hk
    rw [matchedStep_idx, idxGet_insertForms]
    by_cases hmem : k ∈ (allFormsOf c).map pyLower
    · rw [if_pos hmem]
      rfl
    · rw [if_neg hmem]
      obtain ⟨x, hx, hkx⟩ := mem_allLowForms.mp hk
      rw [matchedStep_ontology] at hx
      rcases mem_setLast x hx with hold | rfl
      · exact hj2 k (mem_allLowForms.mpr ⟨x, hold, hkx⟩)
      · obtain ⟨y, hy, rfl⟩ := List.mem_map.mp hkx
        rcases mergedEntry_forms_sub table c e y hy with hin | hin
        · exact hj2 _ (mem_allLowForms.mpr ⟨e, getLast_mem he,
            List.mem_map.mpr ⟨y, hin, rfl⟩⟩)
        · exact absurd (List.mem_map.mpr ⟨y, hin, rfl⟩) hmem

theorem mergeStep_StOk (table : Table) (slugs : List String)
    (st : MergeState) (c : MCluster) (hok : StOk slugs st) :
    StOk slugs (mergeStep table slugs st c) := by
  rw [mergeStep]
  split
  · next mslug hm =>
    split
    · exact hok
    · split
      · exact hok
      · next e he =>
        exact matchedStep_StOk table slugs st c mslug e hok he
  · exact hok

theorem mergeStep_evolve_unmatched (table : Table) (slugs : List String)
    (st : MergeState) (c : MCluster) :
    List.Forall₂ EntryEvolve st.ontology
        (mergeStep table slugs st c).ontology ∧
      (∀ u ∈ st.unmatched, u ∈ (mergeStep table slugs st c).unmatched) := by
  rw [mergeStep]
  split
  · next mslug hm =>
    split
    · exact ⟨forall₂EE_refl _, fun u hu => List.mem_append_left _ hu⟩
    · split
      · exact ⟨forall₂EE_refl _, fun u hu => hu⟩
      · next e he =>
        exact ⟨matchedStep_evolve table st c mslug e he, fun u hu => hu⟩
  · exact ⟨forall₂EE_refl _, fun u hu => List.mem_append_left _ hu⟩

theorem mergeStep_fact (table : Table) (slugs : List String)
    (st : MergeState) (c : MCluster) (hok : StOk slugs st) :
    urecOf c ∈ (mergeStep table slugs st c).unmatched ∨
      Settled table (mergeStep table slugs st c).ontology c := by
  rw [mergeStep]
  split
  · next mslug hm =>
    split
    · exact Or.inl (List.mem_append_right _ (List.mem_singleton.mpr rfl))
    · split
      · next hnone =>
        obtain ⟨e, he⟩ := findMatch_getLast hok hm
        rw [hnone] at he
        cases he
      · next e he =>
        exact Or.inr (matchedStep_settled table st c mslug e he)
  · exact Or.inl (List.mem_append_right _ (List.mem_singleton.mpr rfl))

theorem StOk_init (ontology : List Entry) (stats0 : Stats)
    (unm : List URec) :
    StOk (ontology.map Entry.slug)
      ⟨ontology, buildIndex ontology, stats0, unm⟩ := by
  refine ⟨rfl, ?_, ?_⟩
  · intro k s h
    exact idxGet_buildIndex_some h
  · intro k hk
    cases hidx : idxGet (buildIndex ontology) k with
    | none => exact absurd hk (by
        have := (idxGet_buildIndex_none_iff ontology k).mp hidx
        exact this)
    | some s => rfl

theorem foldl_mergeStep_facts (table : Table) (slugs : List String) :
    ∀ (cs : List MCluster) (st : MergeState), StOk slugs st →
    StOk slugs (cs.foldl (mergeStep table slugs) st) ∧
    List.Forall₂ EntryEvolve st.ontology
      (cs.foldl (mergeStep table slugs) st).ontology ∧
    (∀ u ∈ st.unmatched, u ∈ (cs.foldl (mergeStep table slugs) st).unmatched) ∧
    (∀ c ∈ cs, urecOf c ∈ (cs.foldl (mergeStep table slugs) st).unmatched ∨
      Settled table (cs.foldl (mergeStep table slugs) st).ontology c) := by
  intro cs
  induction cs with
  | nil =>
    intro st hok
    exact ⟨hok, forall₂EE_refl _, fun u hu => hu,
      fun c hc => absurd hc (List.not_mem_nil c)⟩
  | cons c cs ih =>
    intro st hok
    rw [List.foldl_cons]
    have hok1 := mergeStep_StOk table slugs st c hok
    obtain ⟨hok2, hev2, hun2, hfacts2⟩ := ih _ hok1
    obtain ⟨hev1, hun1⟩ := mergeStep_evolve_unmatched table slugs st c
    refine ⟨hok2, forall₂EE_trans hev1 hev2,
      fun u hu => hun2 u (hun1 u hu), ?_⟩
    intro c2 hc2
    rcases List.mem_cons.mp hc2 with rfl | hc3
    · rcases mergeStep_fact table slugs st c2 hok with hu | hs
      · exact Or.inl (hun2 _ hu)
      · exact Or.inr (settled_evolve hev2 hs)
    · exact hfacts2 c2 hc3

/-! ### The trailing loop only sets confirm tokens -/

theorem entryKeep_refl (e : Entry) : EntryKeep e e :=
  ⟨entryEvolve_refl e, rfl⟩

theorem forall₂Keep_refl (l : List Entry) : List.Forall₂ EntryKeep l l := by
  induction l with
  | nil => exact List.Forall₂.nil
  | cons x xs ih => exact List.Forall₂.cons (entryKeep_refl x) ih

theorem forall₂Keep_trans {l1 l2 l3 : List Entry}
    (h1 : List.Forall₂ EntryKeep l1 l2) (h2 : List.Forall₂ EntryKeep l2 l3) :
    List.Forall₂ EntryKeep l1 l3 := by
  induction h1 generalizing l3 with
  | nil =>
    cases h2
    exact List.Forall₂.nil
  | cons hab htail ih =>
    cases h2 with
    | cons hbc htail2 =>
      exact List.Forall₂.cons
        ⟨entryEvolve_trans hab.1 hbc.1, hbc.2.trans hab.2⟩ (ih htail2)

theorem forall₂Keep_to_EE {l1 l2 : List Entry}
    (h : List.Forall₂ EntryKeep l1 l2) : List.Forall₂ EntryEvolve l1 l2 :=
  h.imp fun _ _ hk => hk.1

theorem mem_allLowForms_keep {l1 l2 : List Entry}
    (h : List.Forall₂ EntryKeep l1 l2) (k : String) :
    k ∈ allLowForms l2 ↔ k ∈ allLowForms l1 := by
  induction h with
  | nil => exact Iff.rfl
  | cons hab htail ih =>
    rename_i a b t1 t2
    have hl : allLowForms (a :: t1) = lowForms a ++ allLowForms t1 := by
      rw [allLowForms, List.flatMap_cons]
      rfl
    have hl2 : allLowForms (b :: t2) = lowForms b ++ allLowForms t2 := by
      rw [allLowForms, List.flatMap_cons]
      rfl
    rw [hl, hl2, List.mem_append, List.mem_append, ih,
      show lowForms b = lowForms a by rw [lowForms, lowForms, hab.2]]

theorem forall₂Keep_mem {l1 l2 : List Entry}
    (h : List.Forall₂ EntryKeep l1 l2) {e : Entry} (he : e ∈ l1) :
    ∃ e2 ∈ l2, EntryKeep e e2 := by
  induction h with
  | nil => cases he
  | cons hab htail ih =>
    rcases List.mem_cons.mp he with rfl | he2
    · exact ⟨_, List.mem_cons_self _ _, hab⟩
    · obtain ⟨e2, he2m, hee⟩ := ih he2
      exact ⟨e2, List.mem_cons_of_mem _ he2m, hee⟩

theorem forall₂Keep_setLast {l : List Entry} {s : String} {e v : Entry}
    (h : getLast l s = some e) (hk : EntryKeep e v) :
    List.Forall₂ EntryKeep l (setLast l s v) := by
  induction l with
  | nil => cases h
  | cons x xs ih =>
    rw [getLast] at h
    rw [setLast]
    cases hx : getLast xs s with
    | some r =>
      rw [hx] at h
      exact List.Forall₂.cons (entryKeep_refl x) (ih (hx.trans h))
    | none =>
      rw [hx] at h
      by_cases hs : x.slug = s
      · rw [if_pos hs] at h
        obtain rfl := Option.some.inj h
        rw [if_pos hs]
        exact List.Forall₂.cons hk (forall₂Keep_refl xs)
      · rw [if_neg hs] at h
        cases h

theorem secondStep_keep (slugs : List String) (st : MergeState)
    (kv : String × List (List String)) :
    List.Forall₂ EntryKeep st.ontology (secondStep slugs st kv).ontology ∧
      (secondStep slugs st kv).unmatched = st.unmatched := by
  rw [secondStep]
  split
  · exact ⟨forall₂Keep_refl _, rfl⟩
  · next s hidx =>
    split
    · next hc =>
      split
      · exact ⟨forall₂Keep_refl _, rfl⟩
      · next e hg =>
        split
        · next hct =>
          refine ⟨forall₂Keep_setLast hg ⟨⟨rfl, fun f hf => hf, ?_, ?_⟩, rfl⟩,
            rfl⟩
          · intro v hv
            exact ⟨v, hv, Nat.le_refl v⟩
          · intro t ht
            rw [hct] at ht
            cases ht
        · exact ⟨forall₂Keep_refl _, rfl⟩
    · exact ⟨forall₂Keep_refl _, rfl⟩

theorem secondPass_keep (slugs : List String) (table : Table) :
    ∀ (st : MergeState),
    List.Forall₂ EntryKeep st.ontology (secondPass slugs table st).ontology ∧
      (secondPass slugs table st).unmatched = st.unmatched ∧
      (secondPass slugs table st).idx = st.idx := by
  induction table with
  | nil => exact fun st => ⟨forall₂Keep_refl _, rfl, rfl⟩
  | cons kv rest ih =>
    intro st
    rw [secondPass, List.foldl_cons,
      show List.foldl (secondStep slugs) (secondStep slugs st kv) rest
        = secondPass slugs rest (secondStep slugs st kv) from rfl]
    obtain ⟨hk1, hu1⟩ := secondStep_keep slugs st kv
    obtain ⟨hk2, hu2, hi2⟩ := ih (secondStep slugs st kv)
    exact ⟨forall₂Keep_trans hk1 hk2, hu2.trans hu1,
      hi2.trans (secondStep_idx slugs st kv)⟩

/-! ### After one run, the in-pass index agrees with the rebuilt index -/

theorem run1_idx_agrees (clusters : List MCluster) (ontology : List Entry)
    (table : Table)
    (hd : FormsDisjoint (merge clusters ontology table).ontology) :
    ∀ k, idxGet (merge clusters ontology table).idx k =
      idxGet (buildIndex (merge clusters ontology table).ontology) k := by
  intro k
  obtain ⟨hok1, _, _, _⟩ := foldl_mergeStep_facts table
    (ontology.map Entry.slug) clusters
    ⟨ontology, buildIndex ontology, {}, []⟩
    (StOk_init ontology {} [])
  obtain ⟨hkeep, _, hidx2⟩ := secondPass_keep (ontology.map Entry.slug) table
    (clusters.foldl (mergeStep table (ontology.map Entry.slug))
      ⟨ontology, buildIndex ontology, {}, []⟩)
  have hridx : (merge clusters ontology table).idx =
      (clusters.foldl (mergeStep table (ontology.map Entry.slug))
        ⟨ontology, buildIndex ontology, {}, []⟩).idx := hidx2
  have hront : (merge clusters ontology table).ontology =
      sortBySlug (secondPass (ontology.map Entry.slug) table
        (clusters.foldl (mergeStep table (ontology.map Entry.slug))
          ⟨ontology, buildIndex ontology, {}, []⟩)).ontology := rfl
  rw [hridx]
  cases h : idxGet (clusters.foldl (mergeStep table (ontology.map Entry.slug))
      ⟨ontology, buildIndex ontology, {}, []⟩).idx k with
  | some s =>
    obtain ⟨e, he, hs, hk⟩ := hok1.2.1 _ _ h
    obtain ⟨e2, he2, hkp⟩ := forall₂Keep_mem hkeep he
    have he2out : e2 ∈ (merge clusters ontology table).ontology := by
      rw [hront]
      exact (sortBySlug_perm _).mem_iff.mpr he2
    have hk2 : k ∈ lowForms e2 := by
      rw [lowForms, hkp.2]
      exact hk
    rw [idxGet_buildIndex_owner hd he2out hk2, hkp.1.1, hs]
  | none =>
    cases h2 : idxGet (buildIndex (merge clusters ontology table).ontology) k
      with
    | none => rfl
    | some s2 =>
      exfalso
      obtain ⟨e2, he2, _, hk2⟩ := idxGet_buildIndex_some h2
      rw [hront] at he2
      have hmem1 : k ∈ allLowForms
          (clusters.foldl (mergeStep table (ontology.map Entry.slug))
            ⟨ontology, buildIndex ontology, {}, []⟩).ontology := by
        rw [← mem_allLowForms_keep hkeep k]
        exact mem_allLowForms.mpr ⟨e2, (sortBySlug_perm _).mem_iff.mp he2, hk2⟩
      have := hok1.2.2 k hmem1
      rw [h] at this
      cases this

/-! ### The second run is a no-op -/

theorem settled_sortBySlug {table : Table} {l : List Entry} {c : MCluster}
    (h : Settled table l c) : Settled table (sortBySlug l) c := by
  obtain ⟨s, e, hg, hforms, hrc, hct⟩ := h
  refine ⟨s, e, ?_, hforms, hrc, hct⟩
  rw [getLast_sortBySlug]
  exact hg

theorem findMatch_none_of_threeFail {out : List Entry} {c : MCluster}
    (s2 : MergeState)
    (hidx : ∀ k, idxGet s2.idx k = idxGet (buildIndex out) k)
    (h3 : ThreeFail out c) :
    findMatch s2.idx (out.map Entry.slug) c = none := by
  obtain ⟨h1, h2, h3a⟩ := h3
  have hc : idxGet s2.idx (pyLower c.canonical) = none := by
    rw [hidx, idxGet_buildIndex_none_iff]
    exact h1
  rw [findMatch, hc, if_neg h2]
  show List.findSome? (fun a => idxGet s2.idx (pyLower a.1)) c.aliases = none
  rw [List.findSome?_eq_none_iff]
  intro a ha
  rw [hidx, idxGet_buildIndex_none_iff]
  exact h3a a ha

theorem matchedStep_stats_sfa (table : Table) (st : MergeState)
    (c : MCluster) (mslug : String) (e : Entry) :
    (matchedStep table st c mslug e).stats.surface_forms_added =
      st.stats.surface_forms_added + (addForms e (allFormsOf c)).2 := rfl

theorem matchedStep_stats_rca (table : Table) (st : MergeState)
    (c : MCluster) (mslug : String) (e : Entry) :
    (matchedStep table st c mslug e).stats.recipe_counts_added =
      st.stats.recipe_counts_added +
        (rcUpdate c.totalUsage (addForms e (allFormsOf c)).1).2 := rfl

theorem matchedStep_stats_cta (table : Table) (st : MergeState)
    (c : MCluster) (mslug : String) (e : Entry) :
    (matchedStep table st c mslug e).stats.confirm_tokens_added =
      st.stats.confirm_tokens_added +
        (ctUpdate table (pyLower c.canonical)
          (rcUpdate c.totalUsage (addForms e (allFormsOf c)).1).1).2 := rfl

theorem run2_mergeStep_noop {table : Table} {out : List Entry} {c : MCluster}
    (hd : FormsDisjoint out)
    (hc : Settled table out c ∨ ThreeFail out c) (s2 : MergeState)
    (hont : s2.ontology = out)
    (hidx : ∀ k, idxGet s2.idx k = idxGet (buildIndex out) k) :
    (mergeStep table (out.map Entry.slug) s2 c).ontology = out ∧
    (∀ k, idxGet (mergeStep table (out.map Entry.slug) s2 c).idx k =
      idxGet (buildIndex out) k) ∧
    (mergeStep table (out.map Entry.slug) s2 c).stats.surface_forms_added =
      s2.stats.surface_forms_added ∧
    (mergeStep table (out.map Entry.slug) s2 c).stats.confirm_tokens_added =
      s2.stats.confirm_tokens_added ∧
    (mergeStep table (out.map Entry.slug) s2 c).stats.recipe_counts_added =
      s2.stats.recipe_counts_added := by
  rw [mergeStep]
  split
  · next mslug hm =>
    rcases hc with hset | h3
    · obtain ⟨s, e, hgl, hforms, hrcp, hctp⟩ := hset
      have hp1 : idxGet s2.idx (pyLower c.canonical) = some s := by
        rw [hidx, idxGet_buildIndex_owner hd (getLast_mem hgl)
          (hforms c.canonical (List.mem_cons_self _ _)), getLast_slug hgl]
      have hms : mslug = s := by
        have hf2 : findMatch s2.idx (out.map Entry.slug) c = some s := by
          rw [findMatch, hp1]
        exact Option.some.inj (hm.symm.trans hf2)
      subst hms
      split
      · exact ⟨hont, hidx, rfl, rfl, rfl⟩
      · split
        · next hnone =>
          rw [hont] at hnone
          rw [hnone] at hgl
          cases hgl
        · next e2 he2 =>
          rw [hont] at he2
          obtain rfl : e = e2 := Option.some.inj (hgl.symm.trans he2)
          obtain ⟨hme, hfa2, hrc2, hct2⟩ :=
            mergedEntry_noop table c e hforms hrcp hctp
          refine ⟨?_, ?_, ?_, ?_, ?_⟩
          · rw [matchedStep_ontology, hme, hont]
            exact setLast_self_eq hgl
          · intro k
            rw [matchedStep_idx, idxGet_insertForms]
            by_cases hmem : k ∈ (allFormsOf c).map pyLower
            · rw [if_pos hmem]
              obtain ⟨f, hf, rfl⟩ := List.mem_map.mp hmem
              rw [idxGet_buildIndex_owner hd (getLast_mem hgl) (hforms f hf),
                getLast_slug hgl]
            · rw [if_neg hmem]
              exact hidx k
          · rw [matchedStep_stats_sfa, hfa2]
            exact Nat.add_zero _
          · rw [matchedStep_stats_cta, hct2]
            exact Nat.add_zero _
          · rw [matchedStep_stats_rca, hrc2]
            exact Nat.add_zero _
    · exfalso
      have hf0 := findMatch_none_of_threeFail s2 hidx h3
      rw [hm] at hf0
      cases hf0
  · exact ⟨hont, hidx, rfl, rfl, rfl⟩

theorem run2_fold_noop {table : Table} {out : List Entry}
    (hd : FormsDisjoint out) :
    ∀ (cs : List MCluster),
    (∀ c ∈ cs, Settled table out c ∨ ThreeFail out c) →
    ∀ (s2 : MergeState), s2.ontology = out →
    (∀ k, idxGet s2.idx k = idxGet (buildIndex out) k) →
    (cs.foldl (mergeStep table (out.map Entry.slug)) s2).ontology = out ∧
    (∀ k, idxGet (cs.foldl (mergeStep table (out.map Entry.slug)) s2).idx k =
      idxGet (buildIndex out) k) ∧
    (cs.foldl (mergeStep table (out.map Entry.slug))
      s2).stats.surface_forms_added = s2.stats.surface_forms_added ∧
    (cs.foldl (mergeStep table (out.map Entry.slug))
      s2).stats.confirm_tokens_added = s2.stats.confirm_tokens_added ∧
    (cs.foldl (mergeStep table (out.map Entry.slug))
      s2).stats.recipe_counts_added = s2.stats.recipe_counts_added := by
  intro cs
  induction cs with
  | nil =>
    intro _ s2 hont hidx
    exact ⟨hont, hidx, rfl, rfl, rfl⟩
  | cons c cs ih =>
    intro hcs s2 hont hidx
    rw [List.foldl_cons]
    obtain ⟨h1, h2, h3, h4, h5⟩ := run2_mergeStep_noop hd
      (hcs c (List.mem_cons_self _ _)) s2 hont hidx
    obtain ⟨g1, g2, g3, g4, g5⟩ :=
      ih (fun c2 hc2 => hcs c2 (List.mem_cons_of_mem _ hc2)) _ h1 h2
    exact ⟨g1, g2, g3.trans h3, g4.trans h4, g5.trans h5⟩

theorem secondStep_skip (slugs : List String) (st : MergeState)
    (kv : String × List (List String))
    (h : ∀ s, idxGet st.idx kv.1 = some s → s ≠ "" → s ∈ slugs →
      ∃ e, getLast st.ontology s = some e ∧ e.confirmTokens ≠ none) :
    secondStep slugs st kv = st := by
  rw [secondStep]
  split
  · rfl
  · next s heq =>
    split
    · next hcond =>
      obtain ⟨e, hge, hct⟩ := h s heq hcond.1 hcond.2
      split
      · rfl
      · next e2 he2 =>
        obtain rfl : e = e2 := Option.some.inj (hge.symm.trans he2)
        split
        · next hctnone => exact absurd hctnone hct
        · rfl
    · rfl

theorem secondPass_skip (slugs : List String) (table : Table) :
    ∀ (st : MergeState),
    (∀ kv ∈ table, ∀ s, idxGet st.idx kv.1 = some s → s ≠ "" → s ∈ slugs →
      ∃ e, getLast st.ontology s = some e ∧ e.confirmTokens ≠ none) →
    secondPass slugs table st = st := by
  induction table with
  | nil =>
    intro st _
    rfl
  | cons kv rest ih =>
    intro st h
    rw [secondPass, List.foldl_cons,
      secondStep_skip slugs st kv (h kv (List.mem_cons_self _ _)),
      show List.foldl (secondStep slugs) st rest
        = secondPass slugs rest st from rfl,
      ih st (fun kv2 hkv2 => h kv2 (List.mem_cons_of_mem _ hkv2))]

/-- A merge run against an ontology that already settles every cluster and
every applicable synonym-table key is a complete no-op. -/
theorem merge_run_noop (clusters : List MCluster) (out : List Entry)
    (table : Table) (hd : FormsDisjoint out)
    (hsorted : sortBySlug out = out)
    (hA : ∀ c ∈ clusters, Settled table out c ∨ ThreeFail out c)
    (hsettle : ∀ kv ∈ table, ∀ s, idxGet (buildIndex out) kv.1 = some s →
      s ≠ "" → s ∈ out.map Entry.slug →
      ∃ e, getLast out s = some e ∧ e.confirmTokens ≠ none) :
    (merge clusters out table).ontology = out ∧
    (merge clusters out table).stats.surface_forms_added = 0 ∧
    (merge clusters out table).stats.confirm_tokens_added = 0 ∧
    (merge clusters out table).stats.recipe_counts_added = 0 := by
  obtain ⟨h2ont, h2idx, h2sfa, h2cta, h2rca⟩ := run2_fold_noop hd clusters hA
    ⟨out, buildIndex out, {}, []⟩ rfl (fun k => rfl)
  have hskip : ∀ kv ∈ table, ∀ s,
      idxGet (clusters.foldl (mergeStep table (out.map Entry.slug))
        ⟨out, buildIndex out, {}, []⟩).idx kv.1 = some s →
      s ≠ "" → s ∈ out.map Entry.slug →
      ∃ e, getLast (clusters.foldl (mergeStep table (out.map Entry.slug))
        ⟨out, buildIndex out, {}, []⟩).ontology s = some e ∧
        e.confirmTokens ≠ none := by
    intro kv hkv s hs1 hs2 hs3
    rw [h2idx kv.1] at hs1
    obtain ⟨e, hge, hct⟩ := hsettle kv hkv s hs1 hs2 hs3
    refine ⟨e, ?_, hct⟩
    rw [h2ont]
    exact hge
  have hsp := secondPass_skip (out.map Entry.slug) table
    (clusters.foldl (mergeStep table (out.map Entry.slug))
      ⟨out, buildIndex out, {}, []⟩) hskip
  have e1 : (merge clusters out table).ontology =
      sortBySlug (secondPass (out.map Entry.slug) table
        (clusters.foldl (mergeStep table (out.map Entry.slug))
          ⟨out, buildIndex out, {}, []⟩)).ontology := rfl
  have e2 : (merge clusters out table).stats =
      (secondPass (out.map Entry.slug) table
        (clusters.foldl (mergeStep table (out.map Entry.slug))
          ⟨out, buildIndex out, {}, []⟩)).stats := rfl
  refine ⟨?_, ?_, ?_, ?_⟩
  · rw [e1, hsp, h2ont, hsorted]
  · rw [e2, hsp, h2sfa]
  · rw [e2, hsp, h2cta]
  · rw [e2, hsp, h2rca]

/-- C1 (amended): re-running the Merger with the first run's output ontology
as the new existing ontology and the same cluster input adds zero surface
forms and zero confirm-token sets, leaves the whole ontology — in particular
every recipeCount — unchanged, and increments none of the
surface_forms_added / confirm_tokens_added / recipe_counts_added statistics,
PROVIDED (a) in the first run's output ontology every lowercased surface
form belongs to at most one entry (the spec's own §3 invariant), and (b)
every cluster the first run routed to unmatched still fails all three
lookups against the first run's output.  The counterexample theorem shows
the claim is false without these provisos: a surface form attached to two
entries re-routes a cluster to a different entry on the second run. -/
theorem merge_idempotent_of_disjoint_and_stable
    (clusters : List MCluster) (ontology : List Entry) (table : Table)
    (hd : FormsDisjoint (merge clusters ontology table).ontology)
    (hb : ∀ c ∈ clusters,
      urecOf c ∈ (merge clusters ontology table).unmatched →
      ThreeFail (merge clusters ontology table).ontology c) :
    (merge clusters ((merge clusters ontology table).ontology)
      table).ontology = (merge clusters ontology table).ontology ∧
    (merge clusters ((merge clusters ontology table).ontology)
      table).stats.surface_forms_added = 0 ∧
    (merge clusters ((merge clusters ontology table).ontology)
      table).stats.confirm_tokens_added = 0 ∧
    (merge clusters ((merge clusters ontology table).ontology)
      table).stats.recipe_counts_added = 0 := by
  obtain ⟨hok1, _, _, hfacts⟩ := foldl_mergeStep_facts table
    (ontology.map Entry.slug) clusters
    ⟨ontology, buildIndex ontology, {}, []⟩ (StOk_init ontology {} [])
  obtain ⟨hkeep, hunm2, hidx2⟩ := secondPass_keep (ontology.map Entry.slug)
    table (clusters.foldl (mergeStep table (ontology.map Entry.slug))
      ⟨ontology, buildIndex ontology, {}, []⟩)
  have hront : (merge clusters ontology table).ontology =
      sortBySlug (secondPass (ontology.map Entry.slug) table
        (clusters.foldl (mergeStep table (ontology.map Entry.slug))
          ⟨ontology, buildIndex ontology, {}, []⟩)).ontology := rfl
  have hsorted : sortBySlug (merge clusters ontology table).ontology =
      (merge clusters ontology table).ontology := by
    rw [hront]
    exact sortBySlug_idem _
  have hA : ∀ c ∈ clusters,
      Settled table (merge clusters ontology table).ontology c ∨
      ThreeFail (merge clusters ontology table).ontology c := by
    intro c hc
    rcases hfacts c hc with hu | hs
    · refine Or.inr (hb c hc ?_)
      show urecOf c ∈ (secondPass (ontology.map Entry.slug) table
        (clusters.foldl (mergeStep table (ontology.map Entry.slug))
          ⟨ontology, buildIndex ontology, {}, []⟩)).unmatched
      rw [hunm2]
      exact hu
    · refine Or.inl ?_
      have hs2 := settled_evolve (forall₂Keep_to_EE hkeep) hs
      rw [hront]
      exact settled_sortBySlug hs2
  have hsettle : ∀ kv ∈ table, ∀ s,
      idxGet (buildIndex (merge clusters ontology table).ontology) kv.1 =
        some s →
      s ≠ "" → s ∈ (merge clusters ontology table).ontology.map Entry.slug →
      ∃ e, getLast (merge clusters ontology table).ontology s = some e ∧
        e.confirmTokens ≠ none := by
    intro kv hkv s h1 h2 h3
    have hi1 : idxGet (clusters.foldl (mergeStep table
        (ontology.map Entry.slug))
        ⟨ontology, buildIndex ontology, {}, []⟩).idx kv.1 = some s := by
      have hB := run1_idx_agrees clusters ontology table hd kv.1
      have hio : (merge clusters ontology table).idx =
          (clusters.foldl (mergeStep table (ontology.map Entry.slug))
            ⟨ontology, buildIndex ontology, {}, []⟩).idx := hidx2
      rw [← hio, hB]
      exact h1
    have hs0 : s ∈ ontology.map Entry.slug := by
      have h4 : s ∈ ((secondPass (ontology.map Entry.slug) table
          (clusters.foldl (mergeStep table (ontology.map Entry.slug))
            ⟨ontology, buildIndex ontology, {}, []⟩)).ontology).map
            Entry.slug := by
        rw [hront] at h3
        exact ((sortBySlug_perm _).map Entry.slug).mem_iff.mp h3
      rw [forall₂EE_map_slug (forall₂Keep_to_EE hkeep)] at h4
      rw [hok1.1] at h4
      exact h4
    obtain ⟨e0, he0⟩ : ∃ e0, getLast (clusters.foldl (mergeStep table
        (ontology.map Entry.slug))
        ⟨ontology, buildIndex ontology, {}, []⟩).ontology s = some e0 := by
      apply exists_getLast_of_mem_slug
      rw [hok1.1]
      exact hs0
    obtain ⟨e2, hge2, hct2⟩ := secondPass_attach (ontology.map Entry.slug)
      table kv.1 kv.2 s h2 hs0
      (clusters.foldl (mergeStep table (ontology.map Entry.slug))
        ⟨ontology, buildIndex ontology, {}, []⟩) e0 hkv hi1 he0
    refine ⟨e2, ?_, hct2⟩
    rw [hront, getLast_sortBySlug]
    exact hge2
  exact merge_run_noop clusters (merge clusters ontology table).ontology
    table hd hsorted hA hsettle

/-- C1 witness: a cluster that matches its entry directly, with the synonym
table supplying confirm tokens; the first run's output satisfies both
provisos and the second run is a no-op. -/
theorem merge_idempotent_witness :
    FormsDisjoint (merge [⟨"garlic", [("fresh garlic", 7)], 10⟩]
      [⟨"garlic", ["garlic"], none, none, []⟩]
      [("garlic", [["garlic"]])]).ontology ∧
    (∀ c ∈ [(⟨"garlic", [("fresh garlic", 7)], 10⟩ : MCluster)],
      urecOf c ∈ (merge [⟨"garlic", [("fresh garlic", 7)], 10⟩]
        [⟨"garlic", ["garlic"], none, none, []⟩]
        [("garlic", [["garlic"]])]).unmatched →
      ThreeFail (merge [⟨"garlic", [("fresh garlic", 7)], 10⟩]
        [⟨"garlic", ["garlic"], none, none, []⟩]
        [("garlic", [["garlic"]])]).ontology c) ∧
    (merge [⟨"garlic", [("fresh garlic", 7)], 10⟩]
      ((merge [⟨"garlic", [("fresh garlic", 7)], 10⟩]
        [⟨"garlic", ["garlic"], none, none, []⟩]
        [("garlic", [["garlic"]])]).ontology)
      [("garlic", [["garlic"]])]).ontology =
      (merge [⟨"garlic", [("fresh garlic", 7)], 10⟩]
        [⟨"garlic", ["garlic"], none, none, []⟩]
        [("garlic", [["garlic"]])]).ontology ∧
    (merge [⟨"garlic", [("fresh garlic", 7)], 10⟩]
      ((merge [⟨"garlic", [("fresh garlic", 7)], 10⟩]
        [⟨"garlic", ["garlic"], none, none, []⟩]
        [("garlic", [["garlic"]])]).ontology)
      [("garlic", [["garlic"]])]).stats.surface_forms_added = 0 := by
  have h := merge_idempotent_of_disjoint_and_stable
    [⟨"garlic", [("fresh garlic", 7)], 10⟩]
    [⟨"garlic", ["garlic"], none, none, []⟩]
    [("garlic", [["garlic"]])] (by decide) (by decide)
  exact ⟨by decide, by decide, h.1, h.2.1⟩

end Merge

end Kyokon
